import Mathlib

set_option maxRecDepth 8000

/-!
A shallow embedding of `scripts/add_problem_text_to_frequency.py`.

Python strings are modelled as `List Char` of Unicode scalar values.  Regular
expressions are compiled by hand into deterministic scanners; wherever the
Python pattern admits backtracking, the comment at the definition records the
analysis showing which alternative CPython's engine picks.  Scanners that
re-enter themselves on a strict suffix of the input (rather than on the tail)
take an explicit fuel argument, initialised to the input length; every step
consumes at least one character, so the fuel is never exhausted on the way
and the zero-fuel branch is only reached with empty input.
-/

/-- Characters matched by CPython's `\s` in a `str` pattern (equally, the
characters removed by `str.strip()`): ASCII whitespace, the C0/C1 separators,
and the Unicode space/line/paragraph separators. -/
def pyIsSpace (c : Char) : Bool :=
  [' ', '\t', '\n', '\x0b', '\x0c', '\r', '\x1c', '\x1d', '\x1e', '\x1f',
   '\x85', '\xa0', '\u1680', '\u2028', '\u2029', '\u202F', '\u205F', '\u3000'].contains c
  || (decide (0x2000 ≤ c.toNat) && decide (c.toNat ≤ 0x200A))

/-- CPython's `\d` matches every Unicode decimal digit (category Nd).  The
embedding covers ASCII digits and the fullwidth digits, the only decimal
digits that occur in this corpus's script. -/
def pyIsDigit (c : Char) : Bool :=
  c.isDigit || (decide (0xFF10 ≤ c.toNat) && decide (c.toNat ≤ 0xFF19))

/-- Value of one decimal digit, as `int()` reads it. -/
def digitVal (c : Char) : Nat :=
  if c.isDigit then c.toNat - 48
  else if decide (0xFF10 ≤ c.toNat) && decide (c.toNat ≤ 0xFF19) then c.toNat - 0xFF10
  else 0

/-- `int()` on a run of decimal digits. -/
def natOfDigits (ds : List Char) : Nat := ds.foldl (fun n c => 10 * n + digitVal c) 0

/-- Python `str.strip()`. -/
def pyStrip (s : List Char) : List Char :=
  ((s.dropWhile pyIsSpace).reverse.dropWhile pyIsSpace).reverse

/-- The choice-label glyphs of the class `[a-e①②③④⑤⑥⑦⑧⑨⑩]`. -/
def labelChars : List Char :=
  ['a', 'b', 'c', 'd', 'e', '①', '②', '③', '④', '⑤', '⑥', '⑦', '⑧', '⑨', '⑩']

/-- The separator glyphs of the class `[\.．、:：]` (without `\s`). -/
def sepChars : List Char := ['.', '．', '、', ':', '：']

/-- Step 1 of `normalize_answer_for_match`:
`re.sub(r"^\s*[a-e①②③④⑤⑥⑦⑧⑨⑩]\s*[\.．、:：\s]*", "", s)`.
The pattern is anchored, so at most the single leftmost occurrence is removed.
Since the greedy leading `\s*` stops exactly at the first non-space character
and the label class contains no space, the pattern matches iff the first
non-space character is a label glyph; after the glyph the two greedy pieces
`\s*[\.．、:：\s]*` together consume the maximal run of spaces-or-separators.
When the pattern does not match the string is returned unchanged (leading
whitespace included). -/
def stripLabel (s : List Char) : List Char :=
  match s.dropWhile pyIsSpace with
  | c :: rest =>
      if labelChars.contains c then
        rest.dropWhile (fun d => pyIsSpace d || sepChars.contains d)
      else s
  | [] => s

def isOpenParen (c : Char) : Bool := c == '（' || c == '('

def isCloseParen (c : Char) : Bool := c == '）' || c == ')'

/-- Step 3 of `normalize_answer_for_match`:
`re.sub(r"[（(]([^）)]*)[）)]", r"\1", s)`.
`re.sub` scans left to right; at an opening glyph the greedy `[^）)]*` runs to
the first closing glyph, which must exist for the occurrence to match, and the
replacement (the captured content) is not rescanned.  An opening glyph with no
later closing glyph stays put.  Fuel: each recursive call is on a strict
suffix of the input. -/
def unwrapParensF : Nat → List Char → List Char
  | 0, s => s
  | _ + 1, [] => []
  | fuel + 1, c :: rest =>
      if isOpenParen c then
        match rest.dropWhile (fun d => !isCloseParen d) with
        | _ :: rest2 => rest.takeWhile (fun d => !isCloseParen d) ++ unwrapParensF fuel rest2
        | [] => c :: unwrapParensF fuel rest
      else c :: unwrapParensF fuel rest

def unwrapParens (s : List Char) : List Char := unwrapParensF s.length s

/-- `normalize_answer_for_match(s)`: strip a leading choice-label marker,
`str.strip()`, unwrap parentheticals, then `re.sub(r"\s+", "", s)` - which
deletes every whitespace character, i.e. a filter. -/
def normalize_answer_for_match (s : List Char) : List Char :=
  (unwrapParens (pyStrip (stripLabel s))).filter (fun c => !pyIsSpace c)

/-- The class `[一-龥]` of `answers_match`. -/
def isCJK (c : Char) : Bool := decide (0x4E00 ≤ c.toNat) && decide (c.toNat ≤ 0x9FA5)

/-- The class `[a-zA-Z]` of `answers_match`. -/
def isLatinLetter (c : Char) : Bool :=
  (decide ('a' ≤ c) && decide (c ≤ 'z')) || (decide ('A' ≤ c) && decide (c ≤ 'Z'))

/-- `re.findall(r"[一-龥]{2,}|[a-zA-Z]{2,}", s)`: the two classes are disjoint,
so the non-overlapping greedy matches are exactly the maximal same-class runs
of length at least two.  Fuel: each call consumes at least one character. -/
def contentTokensF : Nat → List Char → List (List Char)
  | 0, _ => []
  | _ + 1, [] => []
  | fuel + 1, c :: rest =>
      if isCJK c then
        let run := rest.takeWhile isCJK
        (if 2 ≤ run.length + 1 then [c :: run] else []) ++
          contentTokensF fuel (rest.drop run.length)
      else if isLatinLetter c then
        let run := rest.takeWhile isLatinLetter
        (if 2 ≤ run.length + 1 then [c :: run] else []) ++
          contentTokensF fuel (rest.drop run.length)
      else contentTokensF fuel rest

def contentTokens (s : List Char) : List (List Char) := contentTokensF s.length s

/-- `answers_match(row_ans, cand_ans)`.  Python's `len(r) >= 0.5 * len(c)` is
exact float arithmetic on small integers, hence equivalent to
`2 * len(r) >= len(c)`.  `r in c` is Python substring containment, and the
final test is nonemptiness of the intersection of the two token sets. -/
def answers_match (row_ans cand_ans : List Char) : Bool :=
  let r := normalize_answer_for_match row_ans
  let c := normalize_answer_for_match cand_ans
  if r = [] ∨ c = [] then false
  else if r = c then true
  else if r <:+: c then decide (2 * r.length ≥ c.length)
  else if c <:+: r then decide (2 * c.length ≥ r.length)
  else (contentTokens r).any (fun t => (contentTokens c).contains t)

/-! ### Basic facts about the normalizer -/

theorem dropWhile_eq_self_of {p : Char → Bool} {l : List Char}
    (h : ∀ c ∈ l, p c = false) : l.dropWhile p = l := by
  cases l with
  | nil => rfl
  | cons c t => simp [List.dropWhile_cons, h c (List.mem_cons_self c t)]

theorem no_ws_of_normalize (x : List Char) :
    ∀ c ∈ normalize_answer_for_match x, pyIsSpace c = false := by
  intro c hc
  simpa using List.of_mem_filter hc

theorem pyStrip_eq_self {l : List Char} (h : ∀ c ∈ l, pyIsSpace c = false) :
    pyStrip l = l := by
  unfold pyStrip
  rw [dropWhile_eq_self_of h,
    dropWhile_eq_self_of (fun c hc => h c (List.mem_reverse.mp hc)),
    List.reverse_reverse]

theorem stripLabel_eq_self {l : List Char} (hws : ∀ c ∈ l, pyIsSpace c = false)
    (hlab : l.head?.all (fun d => !labelChars.contains d) = true) : stripLabel l = l := by
  unfold stripLabel
  rw [dropWhile_eq_self_of hws]
  cases l with
  | nil => rfl
  | cons c t =>
    simp only [List.head?, Option.all_some, Bool.not_eq_true'] at hlab
    have hnm : c ∉ labelChars := by
      intro hmem
      have h2 := List.elem_iff.mpr hmem
      simp only [List.contains] at hlab
      rw [h2] at hlab
      exact absurd hlab (by simp)
    simp [hnm]

/-- Claim C2 (counterexample): the answer normalizer is not idempotent.  On
the two-letter input "ab" the first pass strips the leading label glyph "a"
and yields "b", but "b" is itself a label glyph, so a second pass strips it
and yields the empty string. -/
theorem normalize_not_idempotent :
    normalize_answer_for_match (normalize_answer_for_match ['a', 'b']) ≠
      normalize_answer_for_match ['a', 'b'] := by decide

/-- Claim C2 (amended): the normalizer is idempotent on every input whose
normalized form does not itself begin with a choice-label glyph and is left
unchanged by the parenthetical-unwrapping step.  (Both escape hatches are
real: normalizing "ab" gives "b", whose head is a label glyph, and
normalizing "（（x）y）" gives "（xy）", which still unwraps.) -/
theorem normalize_idempotent_of_fixed (x : List Char)
    (h1 : (normalize_answer_for_match x).head?.all (fun d => !labelChars.contains d) = true)
    (h2 : unwrapParens (normalize_answer_for_match x) = normalize_answer_for_match x) :
    normalize_answer_for_match (normalize_answer_for_match x) =
      normalize_answer_for_match x := by
  have hws := no_ws_of_normalize x
  set y := normalize_answer_for_match x with hy
  show normalize_answer_for_match y = y
  unfold normalize_answer_for_match
  rw [stripLabel_eq_self hws h1, pyStrip_eq_self hws, h2]
  exact List.filter_eq_self.mpr (fun a ha => by simpa using hws a ha)

theorem normalize_idempotent_of_fixed_witness :
    (normalize_answer_for_match ['手', '掌']).head?.all
        (fun d => !labelChars.contains d) = true
    ∧ unwrapParens (normalize_answer_for_match ['手', '掌']) =
        normalize_answer_for_match ['手', '掌']
    ∧ normalize_answer_for_match (normalize_answer_for_match ['手', '掌']) =
        normalize_answer_for_match ['手', '掌'] :=
  ⟨by decide, by decide, normalize_idempotent_of_fixed ['手', '掌'] (by decide) (by decide)⟩

/-! ### Symmetry and the substring rule of the fuzzy matcher -/

theorem infix_antisymm_chars {r c : List Char} (h1 : r <:+: c) (h2 : c <:+: r) :
    r = c :=
  h1.sublist.eq_of_length (le_antisymm h1.length_le h2.length_le)

theorem any_mem_comm (A B : List (List Char)) :
    (A.any fun t => decide (t ∈ B)) = (B.any fun t => decide (t ∈ A)) := by
  have h : ((A.any fun t => decide (t ∈ B)) = true) ↔
      ((B.any fun t => decide (t ∈ A)) = true) := by
    simp only [List.any_eq_true, decide_eq_true_eq]
    exact ⟨fun ⟨t, h1, h2⟩ => ⟨t, h2, h1⟩, fun ⟨t, h1, h2⟩ => ⟨t, h2, h1⟩⟩
  by_cases hx : (A.any fun t => decide (t ∈ B)) = true
  · rw [hx, h.mp hx]
  · have hy : ¬ (B.any fun t => decide (t ∈ A)) = true := fun hb => hx (h.mpr hb)
    rw [Bool.not_eq_true] at hx hy
    rw [hx, hy]

/-- Claim C8: the fuzzy matcher is symmetric: `answers_match a b` equals
`answers_match b a` for all inputs, across the empty-normalization,
exact-equality, proportional-substring and token-overlap rules. -/
theorem answers_match_symm (a b : List Char) :
    answers_match a b = answers_match b a := by
  unfold answers_match
  set r := normalize_answer_for_match a with hr
  set c := normalize_answer_for_match b with hc
  by_cases h0 : r = []
  · by_cases h1 : c = [] <;> simp [h0, h1]
  · by_cases h1 : c = []
    · simp [h0, h1]
    · by_cases heq : r = c
      · simp [heq]
      · have heq2 : ¬ c = r := fun h => heq h.symm
        by_cases hi1 : r <:+: c
        · by_cases hi2 : c <:+: r
          · exact absurd (infix_antisymm_chars hi1 hi2) heq
          · simp [h0, h1, heq, heq2, hi1, hi2]
        · by_cases hi2 : c <:+: r
          · simp [h0, h1, heq, heq2, hi1, hi2]
          · simp [h0, h1, heq, heq2, hi1, hi2]
            exact any_mem_comm _ _

/-- Claim C4: whenever the two normalizations are unequal and one is a
substring of the other, the matcher answers true exactly when twice the
shorter length is at least the longer length, i.e. when the shorter string
is at least 50 percent of the longer one. -/
theorem answers_match_substring_rule (a b : List Char)
    (hne : normalize_answer_for_match a ≠ normalize_answer_for_match b)
    (hsub : normalize_answer_for_match a <:+: normalize_answer_for_match b ∨
      normalize_answer_for_match b <:+: normalize_answer_for_match a) :
    answers_match a b = true ↔
      2 * min (normalize_answer_for_match a).length
          (normalize_answer_for_match b).length ≥
        max (normalize_answer_for_match a).length
          (normalize_answer_for_match b).length := by
  unfold answers_match
  set r := normalize_answer_for_match a with hr
  set c := normalize_answer_for_match b with hc
  by_cases h0 : r = []
  · have hc0 : c ≠ [] := fun h => hne (h0.trans h.symm)
    have hcl : 0 < c.length := List.length_pos.mpr hc0
    rw [if_pos (Or.inl h0), h0]
    simp only [List.length_nil, Nat.mul_zero, ge_iff_le]
    rw [min_eq_left (Nat.zero_le _), max_eq_right (Nat.zero_le _)]
    constructor
    · intro h; exact absurd h (by simp)
    · intro h; omega
  · by_cases h1 : c = []
    · have hrl : 0 < r.length := List.length_pos.mpr h0
      rw [if_pos (Or.inr h1), h1]
      simp only [List.length_nil, Nat.mul_zero, ge_iff_le]
      rw [min_eq_right (Nat.zero_le _), max_eq_left (Nat.zero_le _)]
      constructor
      · intro h; exact absurd h (by simp)
      · intro h; omega
    · rcases hsub with hi | hi
      · have hlt : r.length < c.length := by
          rcases Nat.lt_or_ge r.length c.length with h | h
          · exact h
          · exact absurd (hi.sublist.eq_of_length (le_antisymm hi.length_le h)) hne
        rw [if_neg (by simp [h0, h1]), if_neg hne, if_pos hi]
        rw [min_eq_left (le_of_lt hlt), max_eq_right (le_of_lt hlt)]
        simp
      · have hlt : c.length < r.length := by
          rcases Nat.lt_or_ge c.length r.length with h | h
          · exact h
          · exact absurd (hi.sublist.eq_of_length (le_antisymm hi.length_le h)).symm hne
        have hir : ¬ r <:+: c := fun h => hne (infix_antisymm_chars h hi)
        rw [if_neg (by simp [h0, h1]), if_neg hne, if_neg hir, if_pos hi]
        rw [min_eq_right (le_of_lt hlt), max_eq_left (le_of_lt hlt)]
        simp

theorem answers_match_substring_rule_witness :
    answers_match (List.replicate 10 '水')
        (List.replicate 10 '水' ++ List.replicate 9 '火') = true ∧
    answers_match (List.replicate 10 '水')
        (List.replicate 10 '水' ++ List.replicate 11 '火') = false := by
  constructor
  · exact (answers_match_substring_rule _ _ (by decide) (Or.inl (by decide))).mpr (by decide)
  · have h := answers_match_substring_rule (List.replicate 10 '水')
      (List.replicate 10 '水' ++ List.replicate 11 '火') (by decide) (Or.inl (by decide))
    by_cases hb : answers_match (List.replicate 10 '水')
        (List.replicate 10 '水' ++ List.replicate 11 '火') = true
    · exact absurd (h.mp hb) (by decide)
    · simpa using hb

/-! ### The pre-pass of `main`: stripping previously attached lines -/

/-- The prefix of a problem-text line attached by `format_problem_block`. -/
def tagMon : List Char := "- **問題文** ".toList

/-- The prefix of a choices line attached by `format_problem_block`. -/
def tagSen : List Char := "- **選択肢** ".toList

/-- `re.sub(r"\n- \*\*問題文\*\* [^\n]+", "", content)` (and its 選択肢 twin),
generic in the tag.  The pattern matches a newline followed by a line that
starts with the tag and carries at least one further character; the greedy
`[^\n]+` always extends to the end of that line, so whole lines are deleted
and the scan resumes at the newline that terminates the deleted line. -/
def stripTagF (tag : List Char) : Nat → List Char → List Char
  | 0, s => s
  | _ + 1, [] => []
  | fuel + 1, c :: rest =>
      let line := rest.takeWhile (fun d => d ≠ '\n')
      if c = '\n' ∧ tag <+: line ∧ tag.length < line.length then
        stripTagF tag fuel (rest.dropWhile (fun d => d ≠ '\n'))
      else c :: stripTagF tag fuel rest

def stripTag (tag s : List Char) : List Char := stripTagF tag s.length s

/-- Does the `stripTag` pattern occur anywhere in `s`? -/
def hasTag (tag : List Char) : List Char → Bool
  | [] => false
  | c :: rest =>
      (decide (c = '\n' ∧ tag <+: rest.takeWhile (fun d => d ≠ '\n') ∧
        tag.length < (rest.takeWhile (fun d => d ≠ '\n')).length))
      || hasTag tag rest

theorem takeWhile_dropWhile_self {p : Char → Bool} (l : List Char) :
    (l.dropWhile p).takeWhile p = [] := by
  induction l with
  | nil => rfl
  | cons c t ih =>
    rw [List.dropWhile_cons]
    by_cases h : p c
    · rw [if_pos h]; exact ih
    · rw [if_neg h, List.takeWhile_cons, if_neg h]

theorem dropWhile_length_le {p : Char → Bool} (l : List Char) :
    (l.dropWhile p).length ≤ l.length :=
  (List.dropWhile_suffix p).length_le

/-- Deleting tagged lines never changes the first line of the text. -/
theorem stripTagF_takeWhile (tag : List Char) :
    ∀ fuel s, s.length ≤ fuel →
      (stripTagF tag fuel s).takeWhile (fun d => d ≠ '\n') =
        s.takeWhile (fun d => d ≠ '\n') := by
  intro fuel
  induction fuel with
  | zero => intro s _; rfl
  | succ n ih =>
    intro s hs
    match s with
    | [] => rfl
    | c :: rest =>
      have hrest : rest.length ≤ n := by simpa using Nat.le_of_succ_le_succ hs
      simp only [stripTagF]
      by_cases hcond : c = '\n' ∧ tag <+: rest.takeWhile (fun d => d ≠ '\n') ∧
          tag.length < (rest.takeWhile (fun d => d ≠ '\n')).length
      · rw [if_pos hcond]
        rw [ih _ (le_trans (dropWhile_length_le rest) hrest)]
        obtain ⟨hc, -, -⟩ := hcond
        subst hc
        rw [takeWhile_dropWhile_self, List.takeWhile_cons]
        simp
      · rw [if_neg hcond, List.takeWhile_cons, List.takeWhile_cons]
        by_cases hc : c = '\n'
        · rw [if_neg (by simp [hc]), if_neg (by simp [hc])]
        · rw [if_pos (by simp [hc]), if_pos (by simp [hc]), ih rest hrest]

/-- After `stripTag tag`, no occurrence of the tag pattern remains. -/
theorem hasTag_stripTagF (tag : List Char) :
    ∀ fuel s, s.length ≤ fuel → hasTag tag (stripTagF tag fuel s) = false := by
  intro fuel
  induction fuel with
  | zero =>
    intro s hs
    have : s = [] := List.eq_nil_of_length_eq_zero (Nat.le_zero.mp hs)
    subst this; rfl
  | succ n ih =>
    intro s hs
    match s with
    | [] => rfl
    | c :: rest =>
      have hrest : rest.length ≤ n := by simpa using Nat.le_of_succ_le_succ hs
      simp only [stripTagF]
      by_cases hcond : c = '\n' ∧ tag <+: rest.takeWhile (fun d => d ≠ '\n') ∧
          tag.length < (rest.takeWhile (fun d => d ≠ '\n')).length
      · rw [if_pos hcond]
        exact ih _ (le_trans (dropWhile_length_le rest) hrest)
      · rw [if_neg hcond]
        simp only [hasTag]
        rw [stripTagF_takeWhile tag n rest hrest, ih rest hrest, Bool.or_false]
        exact decide_eq_false hcond

/-- Stripping a clean text is the identity. -/
theorem stripTagF_eq_self (tag : List Char) :
    ∀ fuel s, s.length ≤ fuel → hasTag tag s = false → stripTagF tag fuel s = s := by
  intro fuel
  induction fuel with
  | zero => intro s _ _; rfl
  | succ n ih =>
    intro s hs hclean
    match s with
    | [] => rfl
    | c :: rest =>
      have hrest : rest.length ≤ n := by simpa using Nat.le_of_succ_le_succ hs
      simp only [hasTag, Bool.or_eq_false_iff, decide_eq_false_iff_not] at hclean
      simp only [stripTagF]
      rw [if_neg hclean.1]
      rw [ih rest hrest hclean.2]

theorem hasTag_tail_false {tag : List Char} {c : Char} {rest : List Char}
    (h : hasTag tag (c :: rest) = false) : hasTag tag rest = false := by
  simp only [hasTag, Bool.or_eq_false_iff] at h
  exact h.2

theorem hasTag_dropWhile_false {tag : List Char} (p : Char → Bool) :
    ∀ {s : List Char}, hasTag tag s = false → hasTag tag (s.dropWhile p) = false := by
  intro s
  induction s with
  | nil => intro h; exact h
  | cons c t ih =>
    intro h
    rw [List.dropWhile_cons]
    by_cases hc : p c
    · rw [if_pos hc]; exact ih (hasTag_tail_false h)
    · rw [if_neg hc]; exact h

/-- Stripping one tag cannot create an occurrence of another tag. -/
theorem hasTag_stripTagF_other (t1 t2 : List Char) :
    ∀ fuel s, s.length ≤ fuel → hasTag t1 s = false →
      hasTag t1 (stripTagF t2 fuel s) = false := by
  intro fuel
  induction fuel with
  | zero => intro s _ h; exact h
  | succ n ih =>
    intro s hs hclean
    match s with
    | [] => rfl
    | c :: rest =>
      have hrest : rest.length ≤ n := by simpa using Nat.le_of_succ_le_succ hs
      simp only [stripTagF]
      by_cases hcond : c = '\n' ∧ t2 <+: rest.takeWhile (fun d => d ≠ '\n') ∧
          t2.length < (rest.takeWhile (fun d => d ≠ '\n')).length
      · rw [if_pos hcond]
        exact ih _ (le_trans (dropWhile_length_le rest) hrest)
          (hasTag_dropWhile_false _ (hasTag_tail_false hclean))
      · rw [if_neg hcond]
        simp only [hasTag, Bool.or_eq_false_iff, decide_eq_false_iff_not] at hclean
        simp only [hasTag]
        rw [stripTagF_takeWhile t2 n rest hrest, ih rest hrest hclean.2, Bool.or_false]
        exact decide_eq_false hclean.1

/-- Claim C10 (counterexample): the pre-pass does not delete a matching line
at the very beginning of the document, because both patterns require a
preceding newline.  A hand-written document consisting of the single line
"- **問題文** a" passes through both substitutions unchanged. -/
theorem prePass_keeps_first_line :
    stripTag tagSen (stripTag tagMon ("- **問題文** a".toList)) =
      "- **問題文** a".toList := by decide

/-- Claim C10 (amended): the pre-pass deletes every line of either attached
form that is preceded by a newline - hand-written or not, wherever it occurs -
so that afterwards no newline-preceded line of either form remains; only a
matching line at the very start of the document (which no `\n` precedes) is
retained. -/
theorem prePass_no_tagged_line_survives (content : List Char) :
    hasTag tagMon (stripTag tagSen (stripTag tagMon content)) = false ∧
    hasTag tagSen (stripTag tagSen (stripTag tagMon content)) = false := by
  constructor
  · exact hasTag_stripTagF_other tagMon tagSen _ _ le_rfl
      (hasTag_stripTagF tagMon _ _ le_rfl)
  · exact hasTag_stripTagF tagSen _ _ le_rfl

/-! ### The row pattern and `replace_row` of `main` -/

/-- Consume one expected literal character. -/
def expectChar (c : Char) : List Char → Option (List Char)
  | d :: rest => if d = c then some rest else none
  | [] => none

/-- Consume one character satisfying a predicate, returning it. -/
def expectPred (p : Char → Bool) : List Char → Option (Char × List Char)
  | d :: rest => if p d then some (d, rest) else none
  | [] => none

/-- The row pattern of `main`,
`^\|\s*(202\d(?:本|再)試)\s*\|\s*(問\d+)\s*\|\s*([^|]+)\s*\|$` (MULTILINE),
tried at the start of `s`; the `^` anchor is handled by the caller.  The
pattern is deterministic: every `\s*` is a maximal whitespace run because the
literal that follows is never whitespace, and `\d+` is a maximal digit run.
The tail `\s*([^|]+)\s*\|$` as a whole consumes exactly the segment up to the
next `|`, which must be nonempty (if the segment is all whitespace the first
`\s*` backtracks one character so that `[^|]+` can take it); the returned
third component is that raw segment - `m.group(3)` differs from it only by
leading whitespace, so `m.group(3).strip()` equals the stripped segment.
`$` demands that the character after the closing `|` is a newline or the end.
Returns (group 1, group 2, third segment, rest after the match). -/
def matchRow (s : List Char) :
    Option (List Char × List Char × List Char × List Char) := do
  let s1 ← expectChar '|' s
  let s2a ← expectChar '2' (s1.dropWhile pyIsSpace)
  let s2b ← expectChar '0' s2a
  let s2c ← expectChar '2' s2b
  let (d, s2d) ← expectPred pyIsDigit s2c
  let (t, s2e) ← expectPred (fun u => u == '本' || u == '再') s2d
  let s3 ← expectChar '試' s2e
  let s5 ← expectChar '|' (s3.dropWhile pyIsSpace)
  let s7 ← expectChar '問' (s5.dropWhile pyIsSpace)
  if s7.takeWhile pyIsDigit = [] then none
  else do
    let s9 ← expectChar '|'
      ((s7.drop (s7.takeWhile pyIsDigit).length).dropWhile pyIsSpace)
    if s9.takeWhile (fun ch => ch ≠ '|') = [] then none
    else do
      let s10 ← expectChar '|'
        (s9.drop (s9.takeWhile (fun ch => ch ≠ '|')).length)
      if s10 = [] ∨ s10.head? = some '\n' then
        some (['2', '0', '2', d, t, '試'], '問' :: s7.takeWhile pyIsDigit,
          s9.takeWhile (fun ch => ch ≠ '|'), s10)
      else none

/-- `re.search(r"問(\d+)", s)`: the integer value of the first 問-digit-run.
A 問 not followed by a digit is skipped and the scan resumes after it. -/
def searchQNum : List Char → Option Nat
  | [] => none
  | '問' :: rest =>
      if rest.takeWhile pyIsDigit = [] then searchQNum rest
      else some (natOfDigits (rest.takeWhile pyIsDigit))
  | _ :: rest => searchQNum rest

/-- The first `for ... break` loop of `replace_row`: the first exact-key
candidate whose answer fuzzy-matches. -/
def findMatch3 (row_ans : List Char) :
    List (List Char × List Char × List Char) → Option (List Char × List Char)
  | [] => none
  | (p, c, a) :: t => if answers_match row_ans a then some (p, c) else findMatch3 row_ans t

/-- The second `for ... break` loop of `replace_row`, over `by_exam` entries
`(q_num, problem, choices, answer)`. -/
def findMatch4 (row_ans : List Char) :
    List (Nat × List Char × List Char × List Char) → Option (List Char × List Char)
  | [] => none
  | (_, p, c, a) :: t => if answers_match row_ans a then some (p, c) else findMatch4 row_ans t

/-- Python `sep.join(xs)`. -/
def joinSep (sep : List Char) : List (List Char) → List Char
  | [] => []
  | [x] => x
  | x :: xs => x ++ sep ++ joinSep sep xs

/-- `format_problem_block(problem, choices)`: at most two tagged lines joined
by a newline; empty when both fields are empty. -/
def format_problem_block (problem choices : List Char) : List Char :=
  match (if problem ≠ [] then [tagMon ++ problem] else []) ++
      (if choices ≠ [] then [tagSen ++ choices] else []) with
  | [] => []
  | lines => joinSep ['\n'] lines

/-- `replace_row` of `main`.  The two lookup tables are the functions `bq`
and `be` with default value `[]` (matching `by_qnum.get((exam, q_num), [])`);
the Python test `exam in by_exam` becomes `be exam ≠ []`, because a
`defaultdict(list)` key exists exactly when a record was appended under it.
The arguments are the raw match groups; the `.strip()` calls of the source
are applied here. -/
def replace_row (bq : List Char × Nat → List (List Char × List Char × List Char))
    (be : List Char → List (Nat × List Char × List Char × List Char))
    (full_line g1 g2 g3 : List Char) : List Char :=
  match searchQNum (pyStrip g2) with
  | none => full_line
  | some q_num =>
      let exam := pyStrip g1
      let row_ans := pyStrip g3
      let pc0 := (findMatch3 row_ans (bq (exam, q_num))).getD ([], [])
      let pc := if pc0.1 = [] ∧ be exam ≠ [] then
          (findMatch4 row_ans (be exam)).getD pc0
        else pc0
      if format_problem_block pc.1 pc.2 ≠ [] then
        full_line ++ '\n' :: format_problem_block pc.1 pc.2
      else full_line

/-- `pattern.sub(replace_row, content)`: scan left to right; at a line start
try the row pattern; on a match emit the replacement and resume right after
the matched span (the trailing `$` of the pattern guarantees the remainder is
empty or starts with a newline, so no match can begin there and the
line-start flag passed for the resumed scan is irrelevant); otherwise emit
the character and move on by one. -/
def rowSubF (bq : List Char × Nat → List (List Char × List Char × List Char))
    (be : List Char → List (Nat × List Char × List Char × List Char)) :
    Nat → Bool → List Char → List Char
  | 0, _, s => s
  | _ + 1, _, [] => []
  | fuel + 1, atStart, c :: rest =>
      if atStart then
        match matchRow (c :: rest) with
        | some (g1, g2, g3, rest2) =>
            replace_row bq be ((c :: rest).take ((c :: rest).length - rest2.length))
                g1 g2 g3 ++
              rowSubF bq be fuel false rest2
        | none => c :: rowSubF bq be fuel (c = '\n') rest
      else c :: rowSubF bq be fuel (c = '\n') rest

def rowSub (bq : List Char × Nat → List (List Char × List Char × List Char))
    (be : List Char → List (Nat × List Char × List Char × List Char))
    (content : List Char) : List Char :=
  rowSubF bq be content.length true content

/-- The whole content transformation of `main`: strip previously attached
問題文 lines, then 選択肢 lines, then run the row substitution over the
result, with a fixed pair of lookup tables. -/
def rewriteContent (bq : List Char × Nat → List (List Char × List Char × List Char))
    (be : List Char → List (Nat × List Char × List Char × List Char))
    (content : List Char) : List Char :=
  rowSub bq be (stripTag tagSen (stripTag tagMon content))

/-! ### Claim C1: resolution order of `replace_row` -/

theorem findMatch3_eq_find? (row_ans : List Char)
    (l : List (List Char × List Char × List Char)) :
    findMatch3 row_ans l =
      (l.find? (fun u => answers_match row_ans u.2.2)).map (fun u => (u.1, u.2.1)) := by
  induction l with
  | nil => rfl
  | cons hd tl ih =>
    obtain ⟨p, c, a⟩ := hd
    by_cases h : answers_match row_ans a = true
    · simp [findMatch3, List.find?, h]
    · rw [Bool.not_eq_true] at h
      simp [findMatch3, List.find?, h, ih]

theorem findMatch4_eq_find? (row_ans : List Char)
    (l : List (Nat × List Char × List Char × List Char)) :
    findMatch4 row_ans l =
      (l.find? (fun u => answers_match row_ans u.2.2.2)).map (fun u => (u.2.1, u.2.2.1)) := by
  induction l with
  | nil => rfl
  | cons hd tl ih =>
    obtain ⟨n, p, c, a⟩ := hd
    by_cases h : answers_match row_ans a = true
    · simp [findMatch4, List.find?, h]
    · rw [Bool.not_eq_true] at h
      simp [findMatch4, List.find?, h, ih]

theorem format_problem_block_ne_nil_of_problem {p c : List Char} (hp : p ≠ []) :
    format_problem_block p c ≠ [] := by
  unfold format_problem_block
  rw [if_pos hp]
  by_cases hc : c ≠ []
  · rw [if_pos hc]
    simp [joinSep, tagMon]
  · rw [if_neg hc]
    simp [joinSep, tagMon]

/-- Claim C1 (amended): `replace_row` scans the exact-key candidates
`bq (exam, q_num)` in insertion order and takes the first fuzzy match; when
that match has a nonempty problem text, its record is attached and the
per-exam fallback is never consulted (the conclusion does not depend on
`be`).  When no exact-key candidate matches, the per-exam list is scanned in
insertion order and its first match, if any, is attached.  (As the
counterexample shows, the code additionally rescans the fallback - and lets
it override - whenever the first exact-key match carries an empty problem
text, because the trigger is `not prob`, not "no candidate matched".) -/
theorem replace_row_resolution
    (bq : List Char × Nat → List (List Char × List Char × List Char))
    (be : List Char → List (Nat × List Char × List Char × List Char))
    (full_line g1 g2 g3 : List Char) (q_num : Nat)
    (hq : searchQNum (pyStrip g2) = some q_num) :
    (∀ p c a,
      (bq (pyStrip g1, q_num)).find? (fun u => answers_match (pyStrip g3) u.2.2) =
          some (p, c, a) →
      p ≠ [] →
      replace_row bq be full_line g1 g2 g3 =
        full_line ++ '\n' :: format_problem_block p c)
    ∧ ((bq (pyStrip g1, q_num)).find? (fun u => answers_match (pyStrip g3) u.2.2) = none →
      replace_row bq be full_line g1 g2 g3 =
        match (be (pyStrip g1)).find? (fun u => answers_match (pyStrip g3) u.2.2.2) with
        | some u =>
            if format_problem_block u.2.1 u.2.2.1 ≠ [] then
              full_line ++ '\n' :: format_problem_block u.2.1 u.2.2.1
            else full_line
        | none => full_line) := by
  constructor
  · intro p c a hfind hp
    have hblock := format_problem_block_ne_nil_of_problem (c := c) hp
    simp [replace_row, hq, findMatch3_eq_find?, hfind, hp, hblock]
  · intro hfind
    cases hbe : (be (pyStrip g1)).find? (fun u => answers_match (pyStrip g3) u.2.2.2) with
    | none =>
      have hbe2 : findMatch4 (pyStrip g3) (be (pyStrip g1)) = none := by
        rw [findMatch4_eq_find?, hbe]; rfl
      by_cases h : be (pyStrip g1) = []
      · simp [replace_row, hq, findMatch3_eq_find?, hfind, h, format_problem_block, joinSep]
      · simp [replace_row, hq, findMatch3_eq_find?, hfind, h, hbe2, format_problem_block,
          joinSep]
    | some u =>
      obtain ⟨n, p, c, a⟩ := u
      have h : be (pyStrip g1) ≠ [] := by
        intro h0; rw [h0] at hbe; simp [List.find?] at hbe
      have hbe2 : findMatch4 (pyStrip g3) (be (pyStrip g1)) = some (p, c) := by
        rw [findMatch4_eq_find?, hbe]; rfl
      simp only [replace_row, hq, findMatch3_eq_find?, hfind, Option.map_none,
        Option.getD_none, h, hbe2, ne_eq, not_false_eq_true, and_true, if_pos rfl,
        Option.getD_some]
      simp

/-- An exact-key table whose single candidate for (2022本試, 問1) fuzzy-matches
the row answer "一二" but carries an empty problem text. -/
def bqEmptyProb : List Char × Nat → List (List Char × List Char × List Char) := fun k =>
  if k = ("2022本試".toList, 1) then [([], "択一".toList, "一二".toList)] else []

/-- A per-exam fallback list whose entry also fuzzy-matches "一二" and carries
a nonempty problem text. -/
def beOverride : List Char → List (Nat × List Char × List Char × List Char) := fun e =>
  if e = "2022本試".toList then [(2, "問題文甲".toList, "択二".toList, "一二".toList)] else []

/-- Claim C1 (counterexample): an exact-key candidate fuzzy-matches the row
(first conjunct), yet `replace_row` scans the per-exam fallback anyway and
returns the fallback record (second conjunct), not the matching exact-key
record (third conjunct) - because the fallback trigger in the code is
`not prob`, which also fires when the matched exact-key candidate has an
empty problem text.  This refutes "byExam is scanned only if no exact-key
candidate fuzzy-matches". -/
theorem replace_row_fallback_despite_exact_match :
    (bqEmptyProb ("2022本試".toList, 1)).find?
        (fun u => answers_match "一二".toList u.2.2) =
      some ([], "択一".toList, "一二".toList) ∧
    replace_row bqEmptyProb beOverride "L".toList "2022本試".toList "問1".toList
        "一二".toList =
      "L".toList ++ '\n' :: format_problem_block "問題文甲".toList "択二".toList ∧
    replace_row bqEmptyProb beOverride "L".toList "2022本試".toList "問1".toList
        "一二".toList ≠
      "L".toList ++ '\n' :: format_problem_block [] "択一".toList :=
  ⟨by decide, by decide, by decide⟩

/-- An exact-key table whose single candidate matches and has a nonempty
problem text. -/
def bqGoodProb : List Char × Nat → List (List Char × List Char × List Char) := fun k =>
  if k = ("2022本試".toList, 1) then [("問題文乙".toList, "択三".toList, "一二".toList)] else []

theorem replace_row_resolution_witness :
    searchQNum (pyStrip "問1".toList) = some 1 ∧
    replace_row bqGoodProb beOverride "L".toList "2022本試".toList "問1".toList
        "一二".toList =
      "L".toList ++ '\n' :: format_problem_block "問題文乙".toList "択三".toList :=
  ⟨by decide,
    (replace_row_resolution bqGoodProb beOverride "L".toList "2022本試".toList
        "問1".toList "一二".toList 1 (by decide)).1 "問題文乙".toList "択三".toList
      "一二".toList (by decide) (by decide)⟩

/-! ### The block extractor `extract_problem_choices_answer` -/

/-- The lookahead `(?=\n#{2,4}\s|\n---|\Z)` of the 問題文/正解 patterns:
end of block, or a newline followed by a 2-4 hash run whose next character is
whitespace (a 5-hash run fails: the leftover hash cannot match `\s`), or a
newline followed by three hyphens. -/
def laHolds (t : List Char) : Bool :=
  match t with
  | [] => true
  | '\n' :: u =>
      (decide (2 ≤ (u.takeWhile (fun d => d = '#')).length) &&
        decide ((u.takeWhile (fun d => d = '#')).length ≤ 4) &&
        (match u.drop (u.takeWhile (fun d => d = '#')).length with
         | d :: _ => pyIsSpace d
         | [] => false))
      || (match u with
          | '-' :: '-' :: '-' :: _ => true
          | _ => false)
  | _ => false

/-- How many characters the lazy `.+?` takes beyond its first one: the
smallest drop after which the lookahead holds (`\Z` holds at the end, so the
scan always terminates). -/
def laLen : List Char → Nat
  | [] => 0
  | c :: rest => if laHolds (c :: rest) then 0 else 1 + laLen rest

/-- Index of the last newline of `W`, if any. -/
def lastNlIdx (W : List Char) : Option Nat :=
  (W.reverse.findIdx? (fun d => d = '\n')).map (fun i => W.length - 1 - i)

/-- Where the group of `\s*\n+(.+?)` starts, measured from the position after
the sub-heading literal.  Writing `W` for the maximal whitespace run and `R`
for the remainder: the two greedy pieces first try to consume through the
last newline of `W` (whose newline run has length 1, being last); if `R` is
empty the group would start at the end of the string, where `.+?` has no
character to take, so they backtrack - largest newline index `j < |W| - 1`
first, then the newline run length - leaving at least one character. -/
def groupStart (s2 : List Char) : Option Nat :=
  let W := s2.takeWhile pyIsSpace
  if s2.drop W.length ≠ [] then
    (lastNlIdx W).map (fun j => j + 1)
  else
    match lastNlIdx (W.take (W.length - 1)) with
    | some j =>
        some (j + min ((W.drop j).takeWhile (fun d => d = '\n')).length
          (W.length - 1 - j))
    | none => none

/-- `\s*\n+(.+?)(?=\n#{2,4}\s|\n---|\Z)` with DOTALL, starting after the
sub-heading literal: the captured lazy group. -/
def groupAfterWs (s2 : List Char) : Option (List Char) :=
  match groupStart s2 with
  | none => none
  | some q =>
      match s2.drop q with
      | [] => none
      | c :: rest => some (c :: rest.take (laLen rest))

/-- `問題文[（(]全文[）)]`. -/
def midProbZenbun : List Char → Option (List Char)
  | '問' :: '題' :: '文' :: o :: '全' :: '文' :: cl :: rest =>
      if isOpenParen o && isCloseParen cl then some rest else none
  | _ => none

/-- `問題文[（(]要旨[）)]`. -/
def midProbYoshi : List Char → Option (List Char)
  | '問' :: '題' :: '文' :: o :: '要' :: '旨' :: cl :: rest =>
      if isOpenParen o && isCloseParen cl then some rest else none
  | _ => none

/-- Bare `問題文`. -/
def midProbPlain : List Char → Option (List Char)
  | '問' :: '題' :: '文' :: rest => some rest
  | _ => none

/-- `正解`. -/
def midSeikai : List Char → Option (List Char)
  | '正' :: '解' :: rest => some rest
  | _ => none

/-- One 問題文/正解-style pattern tried at the head of `s`:
`#{3,4}\s*` (a 5-hash run fails here, but the surrounding search then
succeeds one position later, inside the run), the literal piece `mid`, then
the group machinery. -/
def probAt (mid : List Char → Option (List Char)) (s : List Char) :
    Option (List Char) :=
  if 3 ≤ (s.takeWhile (fun d => d = '#')).length ∧
      (s.takeWhile (fun d => d = '#')).length ≤ 4 then
    match mid ((s.drop (s.takeWhile (fun d => d = '#')).length).dropWhile pyIsSpace) with
    | some s2 => groupAfterWs s2
    | none => none
  else none

/-- `re.search` for a 問題文/正解-style pattern: leftmost match wins. -/
def searchProb (mid : List Char → Option (List Char)) : List Char → Option (List Char)
  | [] => none
  | c :: rest =>
      match probAt mid (c :: rest) with
      | some g => some g
      | none => searchProb mid rest

/-- The optional separator and closing `\*\*` after the label of one choices
item: if a separator glyph is present the bold marker must follow it (the
no-separator alternative cannot rescue a failure, since no separator glyph is
an asterisk). -/
def afterLabelSep : List Char → Option (List Char)
  | c1 :: c2 :: rest2 =>
      if sepChars.contains c1 then
        if c2 = '*' then
          match rest2 with
          | '*' :: r => some r
          | _ => none
        else none
      else if c1 = '*' ∧ c2 = '*' then some rest2
      else none
  | _ => none

/-- One item `-\s*\*\*[a-e①-⑩][.．、:：]?\*\*[^\n]*\n?` of the choices
pattern; returns the rest.  The greedy `[^\n]*` runs to the end of the line
and `\n?` takes the newline when present. -/
def parseItem (s : List Char) : Option (List Char) :=
  match s with
  | '-' :: s1 =>
      match s1.dropWhile pyIsSpace with
      | '*' :: '*' :: l :: s3 =>
          if labelChars.contains l then
            match afterLabelSep s3 with
            | some s5 =>
                match s5.dropWhile (fun d => d ≠ '\n') with
                | '\n' :: s7 => some s7
                | _ => some (s5.dropWhile (fun d => d ≠ '\n'))
            | none => none
          else none
      | _ => none
  | _ => none

/-- Zero or more further items (the tail of the greedy `(?:...)+`). -/
def parseItemsMoreF : Nat → List Char → List Char
  | 0, s => s
  | fuel + 1, s =>
      match parseItem s with
      | none => s
      | some r => parseItemsMoreF fuel r

/-- `(?:item)+`: at least one item, then as many as possible; returns the
rest after the matched run. -/
def parseItems (s : List Char) : Option (List Char) :=
  match parseItem s with
  | none => none
  | some r => some (parseItemsMoreF s.length r)

/-- The choices pattern
`#{3,4}\s*選択肢\s*\n+((?:-\s*\*\*[a-e①②③④⑤⑥⑦⑧⑨⑩][.．、:：]?\*\*[^\n]*\n?)+)`
tried at the head of `s`.  Because every item starts with `-`, which is not
whitespace, `\s*\n+` must consume the whole whitespace run `W` after 選択肢,
and its last character must be the newline matched by `\n+`.  Returns the
captured group: the concatenation of the matched items. -/
def choicesAt (s : List Char) : Option (List Char) :=
  if 3 ≤ (s.takeWhile (fun d => d = '#')).length ∧
      (s.takeWhile (fun d => d = '#')).length ≤ 4 then
    match (s.drop (s.takeWhile (fun d => d = '#')).length).dropWhile pyIsSpace with
    | '選' :: '択' :: '肢' :: s2 =>
        if (s2.takeWhile pyIsSpace).getLast? = some '\n' then
          match parseItems (s2.drop (s2.takeWhile pyIsSpace).length) with
          | some rest =>
              some ((s2.drop (s2.takeWhile pyIsSpace).length).take
                ((s2.drop (s2.takeWhile pyIsSpace).length).length - rest.length))
          | none => none
        else none
    | _ => none
  else none

/-- `re.search` for the choices pattern. -/
def searchChoices : List Char → Option (List Char)
  | [] => none
  | c :: rest =>
      match choicesAt (c :: rest) with
      | some g => some g
      | none => searchChoices rest

/-- Python `s.split("\n")`. -/
def splitNl : List Char → List (List Char)
  | [] => [[]]
  | c :: rest =>
      if c = '\n' then [] :: splitNl rest
      else
        match splitNl rest with
        | h :: t2 => (c :: h) :: t2
        | [] => [[c]]

/-- Python `s.replace("**", "")`: left-to-right, non-overlapping. -/
def removeStars : List Char → List Char
  | '*' :: '*' :: rest => removeStars rest
  | c :: rest => c :: removeStars rest
  | [] => []

/-- `re.sub(r"\s+", " ", s)`: every whitespace run becomes one space. -/
def collapseWsF : Nat → List Char → List Char
  | 0, s => s
  | _ + 1, [] => []
  | fuel + 1, c :: rest =>
      if pyIsSpace c then ' ' :: collapseWsF fuel (rest.dropWhile pyIsSpace)
      else c :: collapseWsF fuel rest

def collapseWs (s : List Char) : List Char := collapseWsF s.length s

/-- `extract_problem_choices_answer(text, start, end)` as a function of the
block `text[start:end]`: problem text (first of the three patterns that
matches wins, even when its stripped group is empty), choices, and answer. -/
def extract_problem_choices_answer (block : List Char) :
    List Char × List Char × List Char :=
  let problem :=
    match searchProb midProbZenbun block with
    | some g => (pyStrip g).map (fun d => if d = '\n' then ' ' else d)
    | none =>
      match searchProb midProbYoshi block with
      | some g => (pyStrip g).map (fun d => if d = '\n' then ' ' else d)
      | none =>
        match searchProb midProbPlain block with
        | some g => (pyStrip g).map (fun d => if d = '\n' then ' ' else d)
        | none => []
  let choices_lines :=
    match searchChoices block with
    | some g =>
        (splitNl (pyStrip g)).filterMap (fun l0 =>
          if ['-', ' '].isPrefixOf (pyStrip l0) then some (pyStrip ((pyStrip l0).drop 2))
          else none)
    | none => []
  let choices := if choices_lines ≠ [] then joinSep " / ".toList choices_lines else []
  let answer :=
    match searchProb midSeikai block with
    | some g => collapseWs (pyStrip (removeStars (pyStrip g)))
    | none => []
  (problem, choices, answer)

/-! ### The corpus indexer `build_lookup` -/

/-- `exam_id_from_filename`: `re.match(r"(\d{4})(本|再)試験", name)` is
anchored at the start but allows trailing characters; the result is
`year + session + 試`. -/
def exam_id_from_filename (name : List Char) : List Char :=
  match name with
  | a :: b :: c :: d :: t :: '試' :: '験' :: _ =>
      if pyIsDigit a ∧ pyIsDigit b ∧ pyIsDigit c ∧ pyIsDigit d ∧ (t = '本' ∨ t = '再') then
        [a, b, c, d, t, '試']
      else []
  | _ => []

/-- `re.split(r"[・、]", s)`: split at every delimiter glyph. -/
def splitDelims : List Char → List (List Char)
  | [] => [[]]
  | c :: rest =>
      if c = '・' ∨ c = '、' then [] :: splitDelims rest
      else
        match splitDelims rest with
        | h :: t2 => (c :: h) :: t2
        | [] => [[c]]

/-- `parse_question_numbers(heading)`: split on the delimiter glyphs and keep
the first `問(\d+)` number of each part - a part with no 問 marker (as in
"問35・36") yields nothing. -/
def parse_question_numbers (heading : List Char) : List Nat :=
  (splitDelims heading).filterMap searchQNum

/-- The tail `(?:[・、]問?\d+)*` of the heading's group 1: greedy repetition;
an item needs a delimiter followed by an optional 問 and at least one digit,
and a failed item leaves its delimiter unconsumed. -/
def parseNumsTailF : Nat → List Char → List Char × List Char
  | 0, s => ([], s)
  | fuel + 1, s =>
      match s with
      | c :: rest =>
          if c = '・' ∨ c = '、' then
            match rest with
            | '問' :: r2 =>
                if r2.takeWhile pyIsDigit = [] then ([], c :: rest)
                else
                  let more := parseNumsTailF fuel (r2.drop (r2.takeWhile pyIsDigit).length)
                  (c :: '問' :: (r2.takeWhile pyIsDigit ++ more.1), more.2)
            | _ =>
                if rest.takeWhile pyIsDigit = [] then ([], c :: rest)
                else
                  let more := parseNumsTailF fuel (rest.drop (rest.takeWhile pyIsDigit).length)
                  (c :: (rest.takeWhile pyIsDigit ++ more.1), more.2)
          else ([], c :: rest)
      | [] => ([], [])

/-- Group 1 of the heading pattern, `問\d+(?:[・、]問?\d+)*`. -/
def parseG1 (s : List Char) : Option (List Char × List Char) :=
  match s with
  | '問' :: s1 =>
      if s1.takeWhile pyIsDigit = [] then none
      else
        let more := parseNumsTailF s1.length (s1.drop (s1.takeWhile pyIsDigit).length)
        some ('問' :: (s1.takeWhile pyIsDigit ++ more.1), more.2)
  | _ => none

/-- The trailing `\s*$` (MULTILINE) of the heading pattern, with the joint
backtracking of the greedy `\s*` against `$`: the match ends at the end of
the string when only whitespace remains, and otherwise just before the last
newline of the whitespace run (`$` also holds before a newline); if the run
reaches neither a newline nor the end, the pattern fails.  Returns the rest
of the text after the match end. -/
def matchTrailingWs (s : List Char) : Option (List Char) :=
  if s.drop (s.takeWhile pyIsSpace).length = [] then some []
  else
    match lastNlIdx (s.takeWhile pyIsSpace) with
    | some j => some (s.drop j)
    | none => none

/-- The optional `(?:[（(][^）)]*[）)])?` annotation: an opening glyph, the
greedy run up to the first closing glyph, which must exist. -/
def parenAfter (s : List Char) : Option (List Char) :=
  match s with
  | o :: u =>
      if isOpenParen o then
        match u.drop (u.takeWhile (fun d => !isCloseParen d)).length with
        | _cl :: r2 => some r2
        | [] => none
      else none
  | _ => none

/-- The heading pattern of `build_lookup`,
`^#{2,4}\s+(問\d+(?:[・、]問?\d+)*)\s*(?:[（(][^）)]*[）)])?\s*$` (MULTILINE),
tried at a line start.  The optional annotation is greedy: the
parenthesised branch is tried first (`\s*` before it must consume the whole
whitespace run, since an opening glyph is not whitespace), and on failure the
pattern falls back to closing with `\s*$` from right after group 1.
Returns (group 1, rest of the text after the match end). -/
def matchHeading (s : List Char) : Option (List Char × List Char) :=
  if 2 ≤ (s.takeWhile (fun d => d = '#')).length ∧
      (s.takeWhile (fun d => d = '#')).length ≤ 4 then
    if (s.drop (s.takeWhile (fun d => d = '#')).length).takeWhile pyIsSpace = [] then none
    else
      match parseG1 ((s.drop (s.takeWhile (fun d => d = '#')).length).dropWhile pyIsSpace) with
      | none => none
      | some (g1, s3) =>
          match
            match parenAfter (s3.dropWhile pyIsSpace) with
            | some r2 => matchTrailingWs r2
            | none => none
          with
          | some rest => some (g1, rest)
          | none =>
              match matchTrailingWs s3 with
              | some rest => some (g1, rest)
              | none => none
  else none

/-- `\n^#{2,4}\s+問\d` at the head of the text after a newline. -/
def startsHeading24Q (t : List Char) : Bool :=
  decide (2 ≤ (t.takeWhile (fun d => d = '#')).length) &&
  decide ((t.takeWhile (fun d => d = '#')).length ≤ 4) &&
  (!((t.drop (t.takeWhile (fun d => d = '#')).length).takeWhile pyIsSpace).isEmpty &&
    (match (t.drop (t.takeWhile (fun d => d = '#')).length).dropWhile pyIsSpace with
     | '問' :: d :: _ => pyIsDigit d
     | _ => false))

/-- `\n^#{2,3}\s+` at the head of the text after a newline. -/
def startsHeading23 (t : List Char) : Bool :=
  decide (2 ≤ (t.takeWhile (fun d => d = '#')).length) &&
  decide ((t.takeWhile (fun d => d = '#')).length ≤ 3) &&
  (match t.drop (t.takeWhile (fun d => d = '#')).length with
   | d :: _ => pyIsSpace d
   | [] => false)

/-- Index of the first newline whose remainder satisfies `p`
(`re.search(r"\n^...", tail, re.MULTILINE).start()`). -/
def findNlWith (p : List Char → Bool) : List Char → Option Nat
  | [] => none
  | '\n' :: rest => if p rest then some 0 else (findNlWith p rest).map (· + 1)
  | _ :: rest => (findNlWith p rest).map (· + 1)

/-- The block of a heading: from the end of the heading match to the next
question heading, else to the next shallow heading, else to the end. -/
def blockOf (tail : List Char) : List Char :=
  match findNlWith startsHeading24Q tail with
  | some i => tail.take i
  | none =>
      match findNlWith startsHeading23 tail with
      | some i => tail.take i
      | none => tail

/-- `re.finditer` over the heading pattern (MULTILINE `^`): scan with a
line-start flag, paired with each heading's block.  A match ends before the
last newline of its trailing whitespace (or at the very end), so the rest is
empty or starts with a newline; no heading can match there, hence resuming
with the flag set true is sound whatever `^` would say at that position. -/
def scanHeadsF : Nat → Bool → List Char → List (List Char × List Char)
  | 0, _, _ => []
  | _ + 1, _, [] => []
  | fuel + 1, atStart, c :: rest =>
      if atStart then
        match matchHeading (c :: rest) with
        | some (g1, after) => (g1, blockOf after) :: scanHeadsF fuel true after
        | none => scanHeadsF fuel (c = '\n') rest
      else scanHeadsF fuel (c = '\n') rest

/-- The two lookup structures built by `build_lookup`, as total functions
with default `[]` (the `defaultdict(list)` pair). -/
structure Lookups where
  by_qnum : List Char × Nat → List (List Char × List Char × List Char)
  by_exam : List Char → List (Nat × List Char × List Char × List Char)

def emptyLookups : Lookups := ⟨fun _ => [], fun _ => []⟩

/-- The two appends of the `for qn in q_nums` loop body. -/
def appendEntry (st : Lookups) (exam_id : List Char) (qn : Nat)
    (problem choices answer : List Char) : Lookups where
  by_qnum := fun k =>
    if k = (exam_id, qn) then st.by_qnum k ++ [(problem, choices, answer)]
    else st.by_qnum k
  by_exam := fun e =>
    if e = exam_id then st.by_exam e ++ [(qn, problem, choices, answer)]
    else st.by_exam e

/-- The body of the `for qn in q_nums` loop of `build_lookup`: append under
one question number, guarded by `if problem or choices`. -/
def indexQn (exam_id block : List Char) (st2 : Lookups) (qn : Nat) : Lookups :=
  if (extract_problem_choices_answer block).1 ≠ [] ∨
      (extract_problem_choices_answer block).2.1 ≠ [] then
    appendEntry st2 exam_id qn (extract_problem_choices_answer block).1
      (extract_problem_choices_answer block).2.1
      (extract_problem_choices_answer block).2.2
  else st2

/-- The body of the heading loop of `build_lookup`: skip a heading without
numbers (`if not q_nums: continue`), otherwise index its block under every
parsed number. -/
def indexBlock (exam_id : List Char) (st1 : Lookups) (gb : List Char × List Char) :
    Lookups :=
  if parse_question_numbers gb.1 = [] then st1
  else (parse_question_numbers gb.1).foldl (indexQn exam_id gb.2) st1

/-- The heading loop of `build_lookup` over one document's text. -/
def processDoc (exam_id : List Char) (st : Lookups) (text : List Char) : Lookups :=
  (scanHeadsF text.length true text).foldl (indexBlock exam_id) st

/-- The fixed exclusion set of `build_lookup`, on the stems (the names all
carry the `.md` suffix, so membership of the name in the exclusion set is
membership of the stem in the set of excluded stems). -/
def excludedStems : List (List Char) :=
  ["図を含む問題一覧".toList, "README".toList, "記号問題頻度順".toList]

/-- `build_lookup`, over the discovered documents as (stem, text) pairs in
scan order.  The name filters of the source run on `md_path.name`, which is
the stem plus ".md"; since "問題解説" contains none of '.', 'm', 'd', the
substring test on the name and on the stem agree. -/
def buildStep (st : Lookups) (doc : List Char × List Char) : Lookups :=
  if doc.1 ∈ excludedStems then st
  else if ¬ ("問題解説".toList <:+: doc.1) then st
  else if exam_id_from_filename doc.1 = [] then st
  else processDoc (exam_id_from_filename doc.1) st doc.2

def build_lookup (docs : List (List Char × List Char)) : Lookups :=
  docs.foldl buildStep emptyLookups

/-! ### Claims C6, C7, C9: indexing invariants -/

theorem foldl_preserve {α : Type} {β : Type} {P : α → Prop} {f : α → β → α}
    (hf : ∀ st x, P st → P (f st x)) :
    ∀ (l : List β) (st : α), P st → P (l.foldl f st) := by
  intro l
  induction l with
  | nil => intro st h; exact h
  | cons x xs ih => intro st h; exact ih _ (hf st x h)

/-- The per-append step of the discard invariant (claim C6). -/
theorem appendEntry_no_empty {st : Lookups} {ex : List Char} {qn : Nat}
    {p c a : List Char}
    (hst : (∀ k p1 c1 a1, (p1, c1, a1) ∈ st.by_qnum k → p1 ≠ [] ∨ c1 ≠ []) ∧
      (∀ e qn1 p1 c1 a1, (qn1, p1, c1, a1) ∈ st.by_exam e → p1 ≠ [] ∨ c1 ≠ []))
    (hpc : p ≠ [] ∨ c ≠ []) :
    (∀ k p1 c1 a1, (p1, c1, a1) ∈ (appendEntry st ex qn p c a).by_qnum k →
      p1 ≠ [] ∨ c1 ≠ []) ∧
    (∀ e qn1 p1 c1 a1, (qn1, p1, c1, a1) ∈ (appendEntry st ex qn p c a).by_exam e →
      p1 ≠ [] ∨ c1 ≠ []) := by
  constructor
  · intro k p1 c1 a1 hmem
    simp only [appendEntry] at hmem
    by_cases hk : k = (ex, qn)
    · rw [if_pos hk] at hmem
      rcases List.mem_append.mp hmem with h | h
      · exact hst.1 k p1 c1 a1 h
      · simp only [List.mem_singleton, Prod.mk.injEq] at h
        obtain ⟨rfl, rfl, -⟩ := h
        exact hpc
    · rw [if_neg hk] at hmem
      exact hst.1 k p1 c1 a1 hmem
  · intro e qn1 p1 c1 a1 hmem
    simp only [appendEntry] at hmem
    by_cases he : e = ex
    · rw [if_pos he] at hmem
      rcases List.mem_append.mp hmem with h | h
      · exact hst.2 e qn1 p1 c1 a1 h
      · simp only [List.mem_singleton, Prod.mk.injEq] at h
        obtain ⟨-, rfl, rfl, -⟩ := h
        exact hpc
    · rw [if_neg he] at hmem
      exact hst.2 e qn1 p1 c1 a1 hmem

/-- The discard invariant of claim C6. -/
def DiscardInv (st : Lookups) : Prop :=
  (∀ k p c a, (p, c, a) ∈ st.by_qnum k → p ≠ [] ∨ c ≠ []) ∧
  (∀ e qn p c a, (qn, p, c, a) ∈ st.by_exam e → p ≠ [] ∨ c ≠ [])

/-- Claim C6: a block whose extraction yields an empty problem text and an
empty choices string contributes no record: every record reachable in either
structure of `build_lookup` has a nonempty problem text or a nonempty
choices string (even when its answer is nonempty), because the guard
`if problem or choices` precedes every append. -/
theorem build_lookup_discards_empty_blocks (docs : List (List Char × List Char)) :
    (∀ k p c a, (p, c, a) ∈ (build_lookup docs).by_qnum k → p ≠ [] ∨ c ≠ []) ∧
    (∀ e qn p c a, (qn, p, c, a) ∈ (build_lookup docs).by_exam e →
      p ≠ [] ∨ c ≠ []) := by
  have hQn : ∀ (ex block : List Char) st qn, DiscardInv st →
      DiscardInv (indexQn ex block st qn) := by
    intro ex block st qn h
    unfold indexQn
    by_cases hg : (extract_problem_choices_answer block).1 ≠ [] ∨
        (extract_problem_choices_answer block).2.1 ≠ []
    · rw [if_pos hg]
      exact appendEntry_no_empty h hg
    · rwa [if_neg hg]
  have hBlock : ∀ (ex : List Char) st gb, DiscardInv st →
      DiscardInv (indexBlock ex st gb) := by
    intro ex st gb h
    unfold indexBlock
    by_cases hq : parse_question_numbers gb.1 = []
    · rwa [if_pos hq]
    · rw [if_neg hq]
      exact foldl_preserve (hQn ex gb.2) _ st h
  have hDoc : ∀ ex st text, DiscardInv st → DiscardInv (processDoc ex st text) := by
    intro ex st text h
    exact foldl_preserve (hBlock ex) _ st h
  have hStep : ∀ st doc, DiscardInv st → DiscardInv (buildStep st doc) := by
    intro st doc h
    unfold buildStep
    by_cases h1 : doc.1 ∈ excludedStems
    · rwa [if_pos h1]
    rw [if_neg h1]
    by_cases h2 : ¬ ("問題解説".toList <:+: doc.1)
    · rwa [if_pos h2]
    rw [if_neg h2]
    by_cases h3 : exam_id_from_filename doc.1 = []
    · rwa [if_pos h3]
    rw [if_neg h3]
    exact hDoc _ st doc.2 h
  have base : DiscardInv emptyLookups :=
    ⟨fun k p c a hm => absurd hm (by simp [emptyLookups]),
     fun e qn p c a hm => absurd hm (by simp [emptyLookups])⟩
  exact foldl_preserve hStep docs emptyLookups base

/-- The coverage invariant of claim C9. -/
def CoverInv (st : Lookups) : Prop :=
  ∀ e qn p c a, (p, c, a) ∈ st.by_qnum (e, qn) → (qn, p, c, a) ∈ st.by_exam e

/-- The per-append step of the coverage invariant (claim C9). -/
theorem appendEntry_covers {st : Lookups} {ex : List Char} {qn : Nat}
    {p c a : List Char} (hst : CoverInv st) :
    CoverInv (appendEntry st ex qn p c a) := by
  intro e qn1 p1 c1 a1 hmem
  simp only [appendEntry] at hmem ⊢
  by_cases he : e = ex
  · subst he
    rw [if_pos rfl]
    by_cases hk : ((e, qn1) : List Char × Nat) = (e, qn)
    · rw [if_pos hk] at hmem
      rcases List.mem_append.mp hmem with h | h
      · exact List.mem_append_left _ (hst e qn1 p1 c1 a1 h)
      · simp only [List.mem_singleton, Prod.mk.injEq] at h
        obtain ⟨rfl, rfl, rfl⟩ := h
        have hq : qn1 = qn := by
          have := congrArg Prod.snd hk
          simpa using this
        subst hq
        exact List.mem_append_right _ (List.mem_singleton.mpr rfl)
    · rw [if_neg hk] at hmem
      exact List.mem_append_left _ (hst e qn1 p1 c1 a1 hmem)
  · have hk : ((e, qn1) : List Char × Nat) ≠ (ex, qn) := by
      intro h; exact he (congrArg Prod.fst h)
    rw [if_neg hk] at hmem
    rw [if_neg he]
    exact hst e qn1 p1 c1 a1 hmem

/-- Claim C9: every record reachable through `by_qnum[(exam, qnum)]` is also
reachable through `by_exam[exam]`, paired with the same question number: the
two structures receive their entries in the same loop iteration. -/
theorem build_lookup_by_exam_covers (docs : List (List Char × List Char))
    (e : List Char) (qn : Nat) (p c a : List Char)
    (h : (p, c, a) ∈ (build_lookup docs).by_qnum (e, qn)) :
    (qn, p, c, a) ∈ (build_lookup docs).by_exam e := by
  have hQn : ∀ (ex block : List Char) st qn2, CoverInv st →
      CoverInv (indexQn ex block st qn2) := by
    intro ex block st qn2 hst
    unfold indexQn
    by_cases hg : (extract_problem_choices_answer block).1 ≠ [] ∨
        (extract_problem_choices_answer block).2.1 ≠ []
    · rw [if_pos hg]
      exact appendEntry_covers hst
    · rwa [if_neg hg]
  have hBlock : ∀ (ex : List Char) st gb, CoverInv st →
      CoverInv (indexBlock ex st gb) := by
    intro ex st gb hst
    unfold indexBlock
    by_cases hq : parse_question_numbers gb.1 = []
    · rwa [if_pos hq]
    · rw [if_neg hq]
      exact foldl_preserve (hQn ex gb.2) _ st hst
  have hDoc : ∀ ex st text, CoverInv st → CoverInv (processDoc ex st text) := by
    intro ex st text hst
    exact foldl_preserve (hBlock ex) _ st hst
  have hStep : ∀ st doc, CoverInv st → CoverInv (buildStep st doc) := by
    intro st doc hst
    unfold buildStep
    by_cases h1 : doc.1 ∈ excludedStems
    · rwa [if_pos h1]
    rw [if_neg h1]
    by_cases h2 : ¬ ("問題解説".toList <:+: doc.1)
    · rwa [if_pos h2]
    rw [if_neg h2]
    by_cases h3 : exam_id_from_filename doc.1 = []
    · rwa [if_pos h3]
    rw [if_neg h3]
    exact hDoc _ st doc.2 hst
  have base : CoverInv emptyLookups := by
    intro e1 qn1 p1 c1 a1 hm
    simp [emptyLookups] at hm
  exact foldl_preserve hStep docs emptyLookups base e qn p c a h

/-- Claim C7 (code evaluation at the failing input): the docstring of
`parse_question_numbers` lists "## 問35・36・37" among the heading forms
whose number list it extracts, and the heading pattern deliberately accepts
bare-number segments (`問?\d+`), yet the extractor requires a 問 marker in
every segment: the heading "問35・36・37" yields only [35], while the fully
marked "問36・問38" yields both numbers. -/
theorem parse_question_numbers_drops_bare_numbers :
    parse_question_numbers ("問35・36・37".toList) = [35] ∧
    parse_question_numbers ("問36・問38".toList) = [36, 38] := by
  constructor <;> decide

/-- A one-document corpus whose single block carries a problem text and an
answer. -/
def docsW : List (List Char × List Char) :=
  [("2022本試験問題解説".toList, "### 問1\n#### 問題文\n甲\n#### 正解\na".toList)]

theorem build_lookup_discards_empty_blocks_witness :
    ("甲".toList, ([] : List Char), "a".toList) ∈
        (build_lookup docsW).by_qnum ("2022本試".toList, 1) ∧
    ("甲".toList ≠ ([] : List Char) ∨ ([] : List Char) ≠ ([] : List Char)) :=
  ⟨by decide, (build_lookup_discards_empty_blocks docsW).1 ("2022本試".toList, 1)
      "甲".toList [] "a".toList (by decide)⟩

theorem build_lookup_by_exam_covers_witness :
    (1, "甲".toList, ([] : List Char), "a".toList) ∈
      (build_lookup docsW).by_exam "2022本試".toList :=
  build_lookup_by_exam_covers docsW "2022本試".toList 1 "甲".toList [] "a".toList
    (by decide)

/-! ### Claim C3: what the extractor strips from a choices line -/

/-- Modelled from the claim's words, for comparison with the code (claim C3):
strip the list marker and the label prefix - the bold-wrapped label glyph
with its optional separator - from one matched choices line. -/
def specStripChoiceLine (line : List Char) : List Char :=
  let l1 := if ['-', ' '].isPrefixOf line then line.drop 2 else line
  match l1 with
  | '*' :: '*' :: l :: s :: '*' :: '*' :: r =>
      if labelChars.contains l && sepChars.contains s then pyStrip r else l1
  | '*' :: '*' :: l :: '*' :: '*' :: r =>
      if labelChars.contains l then pyStrip r else l1
  | _ => l1

/-- Claim C3 (counterexample): on a block whose 選択肢 sub-heading is
followed by two label-prefixed list lines, the extractor's choices string
keeps the label prefixes (it removes only the list marker "- "), and so
differs from the join of the label-stripped lines that the claim describes. -/
theorem extract_choices_keeps_labels :
    (extract_problem_choices_answer
        "### 選択肢\n- **a.** あい\n- **b.** うえ".toList).2.1 =
      "**a.** あい / **b.** うえ".toList ∧
    (extract_problem_choices_answer
        "### 選択肢\n- **a.** あい\n- **b.** うえ".toList).2.1 ≠
      joinSep " / ".toList
        (["- **a.** あい".toList, "- **b.** うえ".toList].map specStripChoiceLine) :=
  ⟨by decide, by decide⟩

/-- One well-formed choices line in document form: the list marker "- ", a
bold-wrapped label glyph with optional separator, then arbitrary
newline-free text with no trailing whitespace. -/
def WfItem (it : List Char) : Prop :=
  ∃ l sep rest,
    labelChars.contains l = true ∧
    (sep = [] ∨ ∃ s, sepChars.contains s = true ∧ sep = [s]) ∧
    it = '-' :: ' ' :: '*' :: '*' :: l :: (sep ++ '*' :: '*' :: rest) ∧
    (∀ d ∈ rest, d ≠ '\n') ∧
    rest.getLast?.all (fun d => !pyIsSpace d) = true

theorem labelChars_ne_nl : ∀ l ∈ labelChars, l ≠ '\n' := by decide

theorem labelChars_ne_ws : ∀ l ∈ labelChars, pyIsSpace l = false := by decide

theorem sepChars_ne_nl : ∀ s ∈ sepChars, s ≠ '\n' := by decide

theorem sepChars_ne_ws : ∀ s ∈ sepChars, pyIsSpace s = false := by decide

theorem pyStrip_eq_self_of_ends {l : List Char}
    (h1 : l.head?.all (fun d => !pyIsSpace d) = true)
    (h2 : l.getLast?.all (fun d => !pyIsSpace d) = true) : pyStrip l = l := by
  unfold pyStrip
  have e1 : l.dropWhile pyIsSpace = l := by
    cases l with
    | nil => rfl
    | cons c t =>
      simp only [List.head?, Option.all_some, Bool.not_eq_true'] at h1
      simp [List.dropWhile_cons, h1]
  rw [e1]
  have e2 : l.reverse.dropWhile pyIsSpace = l.reverse := by
    cases hrev : l.reverse with
    | nil => rfl
    | cons c t =>
      have hc : l.getLast? = some c := by
        rw [← List.head?_reverse, hrev]; rfl
      rw [hc] at h2
      simp only [Option.all_some, Bool.not_eq_true'] at h2
      simp [List.dropWhile_cons, h2]
  rw [e2, List.reverse_reverse]

theorem wfItem_no_nl {it : List Char} (h : WfItem it) : ∀ d ∈ it, d ≠ '\n' := by
  obtain ⟨l, sep, rest, hl, hsep, rfl, hnl, -⟩ := h
  intro d hd
  simp only [List.mem_cons, List.mem_append] at hd
  rcases hd with rfl | rfl | rfl | rfl | rfl | hd | hd
  · decide
  · decide
  · decide
  · decide
  · exact labelChars_ne_nl _ (by simpa [List.elem_iff] using hl)
  · rcases hsep with rfl | ⟨s, hs, rfl⟩
    · exact absurd hd (List.not_mem_nil d)
    · simp only [List.mem_singleton] at hd
      subst hd
      exact sepChars_ne_nl _ (by simpa [List.elem_iff] using hs)
  · rcases hd with rfl | rfl | hd
    · decide
    · decide
    · exact hnl d hd

theorem getLast?_cons_of_ne_nil {c : Char} {L : List Char} (h : L ≠ []) :
    (c :: L).getLast? = L.getLast? := by
  cases L with
  | nil => exact absurd rfl h
  | cons x xs => exact List.getLast?_cons_cons

theorem wfItem_getLast {it : List Char} (h : WfItem it) :
    it.getLast?.all (fun d => !pyIsSpace d) = true := by
  obtain ⟨l, sep, rest, hl, hsep, rfl, -, hws⟩ := h
  have core : ('*' :: '*' :: rest).getLast?.all (fun d => !pyIsSpace d) = true := by
    cases rest with
    | nil => decide
    | cons r rs =>
      rw [List.getLast?_cons_cons, List.getLast?_cons_cons]
      exact hws
  have tail2 : (sep ++ '*' :: '*' :: rest).getLast?.all (fun d => !pyIsSpace d) = true := by
    rcases hsep with rfl | ⟨s, hs, rfl⟩
    · simpa using core
    · rw [List.singleton_append, getLast?_cons_of_ne_nil (by simp)]
      exact core
  rw [getLast?_cons_of_ne_nil (by simp), getLast?_cons_of_ne_nil (by simp),
    getLast?_cons_of_ne_nil (by simp), getLast?_cons_of_ne_nil (by simp),
    getLast?_cons_of_ne_nil (by simp)]
  exact tail2

theorem wfItem_drop2_getLast {it : List Char} (h : WfItem it) :
    (it.drop 2).getLast?.all (fun d => !pyIsSpace d) = true := by
  obtain ⟨l, sep, rest, hl, hsep, rfl, -, hws⟩ := h
  have core : ('*' :: '*' :: rest).getLast?.all (fun d => !pyIsSpace d) = true := by
    cases rest with
    | nil => decide
    | cons r rs =>
      rw [List.getLast?_cons_cons, List.getLast?_cons_cons]
      exact hws
  have tail2 : (sep ++ '*' :: '*' :: rest).getLast?.all (fun d => !pyIsSpace d) = true := by
    rcases hsep with rfl | ⟨s, hs, rfl⟩
    · simpa using core
    · rw [List.singleton_append, getLast?_cons_of_ne_nil (by simp)]
      exact core
  show (('*' : Char) :: '*' :: l :: (sep ++ '*' :: '*' :: rest)).getLast?.all
    (fun d => !pyIsSpace d) = true
  rw [getLast?_cons_of_ne_nil (by simp), getLast?_cons_of_ne_nil (by simp),
    getLast?_cons_of_ne_nil (by simp)]
  exact tail2

theorem dropWhile_all_eq_nil {p : Char → Bool} {l : List Char}
    (h : ∀ d ∈ l, p d = true) : l.dropWhile p = [] := by
  induction l with
  | nil => rfl
  | cons c t ih =>
    rw [List.dropWhile_cons, if_pos (h c (List.mem_cons_self c t))]
    exact ih (fun d hd => h d (List.mem_cons_of_mem c hd))

theorem afterLabelSep_stars (r : List Char) :
    afterLabelSep ('*' :: '*' :: r) = some r := rfl

theorem afterLabelSep_sep {s : Char} (hs : sepChars.contains s = true)
    (r : List Char) : afterLabelSep (s :: '*' :: '*' :: r) = some r := by
  simp only [afterLabelSep]
  rw [if_pos hs]
  simp

/-- A well-formed item followed by a newline parses as one choices item,
leaving the text after the newline. -/
theorem parseItem_wf_cons {it : List Char} (h : WfItem it) (u : List Char) :
    parseItem (it ++ '\n' :: u) = some u := by
  obtain ⟨l, sep, rest, hl, hsep, rfl, hnl, -⟩ := h
  have h1 : pyIsSpace ' ' = true := by decide
  have h2 : pyIsSpace '*' = false := by decide
  have h4 : sepChars.contains '*' = false := by decide
  have hdw : (rest ++ '\n' :: u).dropWhile (fun d => !decide (d = '\n')) = '\n' :: u := by
    rw [List.dropWhile_append_of_pos (by intro a ha; simpa using hnl a ha)]
    simp [List.dropWhile_cons]
  rcases hsep with rfl | ⟨s, hs, rfl⟩
  · simp [List.cons_append, List.append_assoc, parseItem,
      List.dropWhile_cons, h1, h2, afterLabelSep_stars]
    exact ⟨by simpa [List.elem_iff] using hl, by rw [hdw]; rfl⟩
  · simp [List.cons_append, List.append_assoc, parseItem,
      List.dropWhile_cons, h1, h2, afterLabelSep_sep hs]
    exact ⟨by simpa [List.elem_iff] using hl, by rw [hdw]; rfl⟩

/-- The final well-formed item of the run parses and exhausts the text. -/
theorem parseItem_wf_last {it : List Char} (h : WfItem it) :
    parseItem it = some [] := by
  obtain ⟨l, sep, rest, hl, hsep, rfl, hnl, -⟩ := h
  have h1 : pyIsSpace ' ' = true := by decide
  have h2 : pyIsSpace '*' = false := by decide
  have h4 : sepChars.contains '*' = false := by decide
  have hdw : rest.dropWhile (fun d => !decide (d = '\n')) = [] :=
    dropWhile_all_eq_nil (by intro a ha; simpa using hnl a ha)
  rcases hsep with rfl | ⟨s, hs, rfl⟩
  · simp [parseItem, List.dropWhile_cons, h1, h2, afterLabelSep_stars]
    exact ⟨by simpa [List.elem_iff] using hl, by rw [hdw]⟩
  · simp [parseItem, List.dropWhile_cons, h1, h2, afterLabelSep_sep hs]
    exact ⟨by simpa [List.elem_iff] using hl, by rw [hdw]⟩

theorem joinSep_cons_cons (sep x y : List Char) (ys : List (List Char)) :
    joinSep sep (x :: y :: ys) = x ++ sep ++ joinSep sep (y :: ys) := rfl

/-- The item run of well-formed lines joined by newlines parses to its end. -/
theorem parseItemsMoreF_joinSep :
    ∀ (items : List (List Char)) (fuel : Nat),
      (∀ it ∈ items, WfItem it) → (joinSep ['\n'] items).length ≤ fuel →
      parseItemsMoreF fuel (joinSep ['\n'] items) = [] := by
  intro items
  induction items with
  | nil =>
    intro fuel _ _
    cases fuel with
    | zero => rfl
    | succ n => rfl
  | cons it its ih =>
    intro fuel hwf hlen
    cases its with
    | nil =>
      have hit : WfItem it := hwf it (List.mem_cons_self it [])
      have hne : it ≠ [] := by
        obtain ⟨l, sep, rest, -, -, rfl, -, -⟩ := hit
        simp
      cases fuel with
      | zero =>
        exfalso
        have : (joinSep ['\n'] [it]).length = it.length := by rfl
        rw [this] at hlen
        have : 0 < it.length := List.length_pos.mpr hne
        omega
      | succ n =>
        show parseItemsMoreF (n + 1) it = []
        simp only [parseItemsMoreF, parseItem_wf_last hit]
        cases n with
        | zero => rfl
        | succ m => rfl
    | cons it2 its2 =>
      rw [joinSep_cons_cons] at hlen ⊢
      have hit : WfItem it := hwf it (List.mem_cons_self it _)
      have heq : it ++ ['\n'] ++ joinSep ['\n'] (it2 :: its2) =
          it ++ '\n' :: joinSep ['\n'] (it2 :: its2) := by simp
      rw [heq] at hlen ⊢
      cases fuel with
      | zero =>
        exfalso
        simp only [List.length_append, List.length_cons] at hlen
        omega
      | succ n =>
        simp only [parseItemsMoreF, parseItem_wf_cons hit]
        apply ih n (fun x hx => hwf x (List.mem_cons_of_mem it hx))
        simp only [List.length_append, List.length_cons] at hlen
        omega

theorem parseItemsMoreF_nil (fuel : Nat) : parseItemsMoreF fuel [] = [] := by
  cases fuel with
  | zero => rfl
  | succ n =>
    show (match parseItem [] with
          | none => ([] : List Char)
          | some r => parseItemsMoreF n r) = []
    rfl

theorem parseItems_joinSep (items : List (List Char)) (hne : items ≠ [])
    (hwf : ∀ it ∈ items, WfItem it) :
    parseItems (joinSep ['\n'] items) = some [] := by
  cases items with
  | nil => exact absurd rfl hne
  | cons it its =>
    have hit : WfItem it := hwf it (List.mem_cons_self it _)
    cases its with
    | nil =>
      show parseItems it = some []
      unfold parseItems
      rw [parseItem_wf_last hit]
      show some (parseItemsMoreF it.length []) = some []
      rw [parseItemsMoreF_nil]
    | cons it2 its2 =>
      unfold parseItems
      rw [joinSep_cons_cons]
      have heq : it ++ ['\n'] ++ joinSep ['\n'] (it2 :: its2) =
          it ++ '\n' :: joinSep ['\n'] (it2 :: its2) := by simp
      rw [heq, parseItem_wf_cons hit]
      show some (parseItemsMoreF (it ++ '\n' :: joinSep ['\n'] (it2 :: its2)).length
        (joinSep ['\n'] (it2 :: its2))) = some []
      rw [parseItemsMoreF_joinSep (it2 :: its2) _
        (fun x hx => hwf x (List.mem_cons_of_mem it hx))
        (by simp; omega)]

theorem splitNl_no_nl {x : List Char} (h : ∀ d ∈ x, d ≠ '\n') : splitNl x = [x] := by
  induction x with
  | nil => rfl
  | cons c t ih =>
    have hc : c ≠ '\n' := h c (List.mem_cons_self c t)
    simp only [splitNl, if_neg hc, ih (fun d hd => h d (List.mem_cons_of_mem c hd))]

theorem splitNl_append_nl {x : List Char} (z : List Char)
    (h : ∀ d ∈ x, d ≠ '\n') : splitNl (x ++ '\n' :: z) = x :: splitNl z := by
  induction x with
  | nil => simp [splitNl]
  | cons c t ih =>
    have hc : c ≠ '\n' := h c (List.mem_cons_self c t)
    rw [List.cons_append]
    simp only [splitNl, if_neg hc, ih (fun d hd => h d (List.mem_cons_of_mem c hd))]

theorem splitNl_joinSep :
    ∀ (items : List (List Char)), items ≠ [] →
      (∀ it ∈ items, ∀ d ∈ it, d ≠ '\n') →
      splitNl (joinSep ['\n'] items) = items := by
  intro items
  induction items with
  | nil => intro h; exact absurd rfl h
  | cons it its ih =>
    intro _ hnl
    cases its with
    | nil => exact splitNl_no_nl (hnl it (List.mem_cons_self it _))
    | cons it2 its2 =>
      rw [joinSep_cons_cons]
      have heq : it ++ ['\n'] ++ joinSep ['\n'] (it2 :: its2) =
          it ++ '\n' :: joinSep ['\n'] (it2 :: its2) := by simp
      rw [heq, splitNl_append_nl _ (hnl it (List.mem_cons_self it _)),
        ih (by simp) (fun x hx => hnl x (List.mem_cons_of_mem it hx))]

theorem wfItem_shape {it : List Char} (h : WfItem it) :
    ∃ w, it = '-' :: ' ' :: '*' :: '*' :: w := by
  obtain ⟨l, sep, rest, -, -, rfl, -, -⟩ := h
  exact ⟨l :: (sep ++ '*' :: '*' :: rest), rfl⟩

theorem joinSep_head_wf {sep : List Char} :
    ∀ (items : List (List Char)), items ≠ [] → (∀ it ∈ items, WfItem it) →
      ∃ w, joinSep sep items = '-' :: ' ' :: '*' :: '*' :: w := by
  intro items hne hwf
  cases items with
  | nil => exact absurd rfl hne
  | cons it its =>
    obtain ⟨w, hw⟩ := wfItem_shape (hwf it (List.mem_cons_self it _))
    cases its with
    | nil => exact ⟨w, hw⟩
    | cons it2 its2 =>
      rw [joinSep_cons_cons, hw]
      exact ⟨w ++ sep ++ joinSep sep (it2 :: its2), by simp⟩

theorem joinSep_getLast_wf :
    ∀ (items : List (List Char)), items ≠ [] → (∀ it ∈ items, WfItem it) →
      (joinSep ['\n'] items).getLast?.all (fun d => !pyIsSpace d) = true := by
  intro items
  induction items with
  | nil => intro h; exact absurd rfl h
  | cons it its ih =>
    intro _ hwf
    cases its with
    | nil => exact wfItem_getLast (hwf it (List.mem_cons_self it _))
    | cons it2 its2 =>
      rw [joinSep_cons_cons, List.append_assoc]
      have hlast := ih (by simp) (fun x hx => hwf x (List.mem_cons_of_mem it hx))
      obtain ⟨w, hw⟩ := joinSep_head_wf (it2 :: its2) (by simp)
        (fun x hx => hwf x (List.mem_cons_of_mem it hx))
      rcases hgl : (joinSep ['\n'] (it2 :: its2)).getLast? with _ | d
      · rw [hw] at hgl
        rw [List.getLast?_eq_getLast _ (by simp)] at hgl
        cases hgl
      · rw [hgl] at hlast
        rw [List.getLast?_append, List.getLast?_append, hgl]
        exact hlast

theorem filterMap_eq_map_of_some {α β : Type} (f : α → Option β) (g : α → β) :
    ∀ (l : List α), (∀ x ∈ l, f x = some (g x)) → l.filterMap f = l.map g := by
  intro l
  induction l with
  | nil => intro _; rfl
  | cons a t ih =>
    intro h
    rw [List.filterMap_cons, h a (List.mem_cons_self a t), List.map_cons,
      ih (fun x hx => h x (List.mem_cons_of_mem a hx))]

/-- One step of the per-line choices post-processing of
`extract_problem_choices_answer` on a well-formed item: the strip is a
no-op and only the two marker characters `- ` go. -/
theorem wfItem_filter_step {it : List Char} (h : WfItem it) :
    (if ['-', ' '].isPrefixOf (pyStrip it) then some (pyStrip ((pyStrip it).drop 2))
     else none) = some (it.drop 2) := by
  obtain ⟨w, hw⟩ := wfItem_shape h
  have hstrip : pyStrip it = it :=
    pyStrip_eq_self_of_ends (by rw [hw]; rfl) (wfItem_getLast h)
  rw [hstrip]
  have hpre : (['-', ' '].isPrefixOf it) = true := by rw [hw]; rfl
  rw [if_pos hpre]
  have hstrip2 : pyStrip (it.drop 2) = it.drop 2 :=
    pyStrip_eq_self_of_ends (by rw [hw]; rfl) (wfItem_drop2_getLast h)
  rw [hstrip2]

/-- `choicesAt` with the heading `### 選択肢` and a leading `-` after the
newline, reduced down to its `parseItems` call. -/
theorem choicesAt_cons (w : List Char) :
    choicesAt ('#' :: '#' :: '#' :: ' ' :: '選' :: '択' :: '肢' :: '\n' :: '-' :: ' ' :: '*' :: '*' :: w) =
      match parseItems ('-' :: ' ' :: '*' :: '*' :: w) with
      | some rest => some (('-' :: ' ' :: '*' :: '*' :: w).take
          (('-' :: ' ' :: '*' :: '*' :: w).length - rest.length))
      | none => none := rfl

theorem choicesAt_head (items : List (List Char)) (hne : items ≠ [])
    (hwf : ∀ it ∈ items, WfItem it) :
    choicesAt ("### 選択肢\n".toList ++ joinSep ['\n'] items) =
      some (joinSep ['\n'] items) := by
  obtain ⟨w, hw⟩ := joinSep_head_wf items hne hwf
  have hb : "### 選択肢\n".toList ++ joinSep ['\n'] items =
      '#' :: '#' :: '#' :: ' ' :: '選' :: '択' :: '肢' :: '\n' :: '-' :: ' ' :: '*' :: '*' :: w := by
    rw [hw]; rfl
  rw [hb, choicesAt_cons, ← hw, parseItems_joinSep items hne hwf]
  simp

theorem searchChoices_head (items : List (List Char)) (hne : items ≠ [])
    (hwf : ∀ it ∈ items, WfItem it) :
    searchChoices ("### 選択肢\n".toList ++ joinSep ['\n'] items) =
      some (joinSep ['\n'] items) := by
  have h := choicesAt_head items hne hwf
  show (match choicesAt ("### 選択肢\n".toList ++ joinSep ['\n'] items) with
        | some g => some g
        | none => searchChoices ("## 選択肢\n".toList ++ joinSep ['\n'] items)) =
      some (joinSep ['\n'] items)
  rw [h]

/-- C3 (amended): on a choices section `### 選択肢\n` followed by a
newline-joined list of well-formed choice items `- **<label><sep?>**<text>`,
`extract_problem_choices_answer` returns the items joined with " / " with
ONLY the leading two characters "- " removed from each: the bold label
marker `**a.**` etc. is kept verbatim, contrary to the spec's claim that
labels are stripped. -/
theorem extract_choices_strips_marker_only (items : List (List Char))
    (hne : items ≠ []) (hwf : ∀ it ∈ items, WfItem it) :
    (extract_problem_choices_answer ("### 選択肢\n".toList ++ joinSep ['\n'] items)).2.1 =
      joinSep " / ".toList (items.map (fun it => it.drop 2)) := by
  have hsc := searchChoices_head items hne hwf
  obtain ⟨w, hw⟩ := joinSep_head_wf items hne hwf
  have hJstrip : pyStrip (joinSep ['\n'] items) = joinSep ['\n'] items :=
    pyStrip_eq_self_of_ends (by rw [hw]; rfl) (joinSep_getLast_wf items hne hwf)
  have hsplit := splitNl_joinSep items hne (fun it hit => wfItem_no_nl (hwf it hit))
  have hfm : (splitNl (pyStrip (joinSep ['\n'] items))).filterMap (fun l0 =>
      if ['-', ' '].isPrefixOf (pyStrip l0) then some (pyStrip ((pyStrip l0).drop 2))
      else none) = items.map (fun it => it.drop 2) := by
    rw [hJstrip, hsplit]
    exact filterMap_eq_map_of_some _ (fun it => it.drop 2) items
      (fun it hit => wfItem_filter_step (hwf it hit))
  simp only [extract_problem_choices_answer, hsc, hfm]
  rw [if_pos (by simpa using hne)]

theorem extract_choices_strips_marker_only_witness :
    (extract_problem_choices_answer ("### 選択肢\n".toList ++
        joinSep ['\n'] ["- **a.** あい".toList, "- **b.** うえ".toList])).2.1 =
      joinSep " / ".toList
        ((["- **a.** あい".toList, "- **b.** うえ".toList]).map (fun it => it.drop 2)) := by
  apply extract_choices_strips_marker_only
  · decide
  · intro it hit
    simp only [List.mem_cons, List.not_mem_nil, or_false] at hit
    rcases hit with rfl | rfl
    · exact ⟨'a', ['.'], [' ', 'あ', 'い'], by decide,
        Or.inr ⟨'.', by decide, rfl⟩, by decide, by decide, by decide⟩
    · exact ⟨'b', ['.'], [' ', 'う', 'え'], by decide,
        Or.inr ⟨'.', by decide, rfl⟩, by decide, by decide, by decide⟩

/-! ### Claim C5: idempotence of the rewrite pass -/

/-- A tail of the document at which the row scan can resume: empty, or
starting with a newline (guaranteed by the `$` of the row pattern). -/
def NlHead (s : List Char) : Prop := s = [] ∨ s.head? = some '\n'

theorem nlHead_append {a b : List Char} (ha : NlHead a) (hb : NlHead b) :
    NlHead (a ++ b) := by
  rcases ha with rfl | ha
  · simpa using hb
  · cases a with
    | nil => simpa using hb
    | cons c t => simp only [List.head?_cons, Option.some.injEq] at ha
                  exact Or.inr (by simp [ha])

theorem takeWhile_nlHead {s : List Char} (h : NlHead s) :
    s.takeWhile (fun d => d ≠ '\n') = [] := by
  rcases h with rfl | h
  · rfl
  · cases s with
    | nil => rfl
    | cons c t =>
      simp only [List.head?_cons, Option.some.injEq] at h
      subst h
      rw [List.takeWhile_cons, if_neg (by simp)]

theorem takeWhile_append_cases (p : Char → Bool) :
    ∀ (a b : List Char), (a ++ b).takeWhile p =
      a.takeWhile p ++ (if a.all p then b.takeWhile p else []) := by
  intro a b
  induction a with
  | nil => simp
  | cons c t ih =>
    rw [List.cons_append, List.takeWhile_cons, List.takeWhile_cons]
    by_cases hc : p c
    · rw [if_pos hc, if_pos hc, ih, List.cons_append]
      simp [List.all_cons, hc]
    · rw [if_neg hc, if_neg hc]
      simp [List.all_cons, hc]

theorem takeWhile_all_eq_self {p : Char → Bool} {a : List Char}
    (h : ∀ d ∈ a, p d = true) : a.takeWhile p = a := by
  induction a with
  | nil => rfl
  | cons c t ih =>
    rw [List.takeWhile_cons, if_pos (h c (List.mem_cons_self c t)),
      ih (fun d hd => h d (List.mem_cons_of_mem c hd))]

theorem takeWhile_append_nlHead {a x : List Char} (hx : NlHead x) :
    (a ++ x).takeWhile (fun d => d ≠ '\n') = a.takeWhile (fun d => d ≠ '\n') := by
  rw [takeWhile_append_cases, takeWhile_nlHead hx]
  rcases h : a.all (fun d => d ≠ '\n') with _ | _ <;> simp

theorem takeWhile_append_nonl {a x : List Char} (ha : ∀ d ∈ a, d ≠ '\n')
    (hx : NlHead x) : (a ++ x).takeWhile (fun d => d ≠ '\n') = a := by
  rw [takeWhile_append_nlHead hx]
  exact takeWhile_all_eq_self (fun d hd => by simpa using ha d hd)

theorem dropWhile_append_nonl {a x : List Char} (ha : ∀ d ∈ a, d ≠ '\n')
    (hx : NlHead x) : (a ++ x).dropWhile (fun d => d ≠ '\n') = x := by
  induction a with
  | nil =>
    rcases hx with rfl | hx
    · rfl
    · cases x with
      | nil => rfl
      | cons c t =>
        simp only [List.head?_cons, Option.some.injEq] at hx
        subst hx
        rw [List.nil_append, List.dropWhile_cons, if_neg (by simp)]
  | cons c t ih =>
    rw [List.cons_append, List.dropWhile_cons,
      if_pos (by simpa using ha c (List.mem_cons_self c t))]
    exact ih (fun d hd => ha d (List.mem_cons_of_mem c hd))

theorem expectChar_some {ch : Char} {s r : List Char}
    (h : expectChar ch s = some r) : r <:+ s ∧ r.length < s.length := by
  cases s with
  | nil => cases h
  | cons d t =>
    simp only [expectChar] at h
    split at h
    · cases h
      exact ⟨List.suffix_cons _ _, by simp⟩
    · cases h

theorem expectPred_some {p : Char → Bool} {s : List Char} {d : Char} {r : List Char}
    (h : expectPred p s = some (d, r)) :
    r <:+ s ∧ r.length < s.length ∧ s = d :: r := by
  cases s with
  | nil => cases h
  | cons e t =>
    simp only [expectPred] at h
    split at h
    · simp only [Option.some.injEq, Prod.mk.injEq] at h
      obtain ⟨rfl, rfl⟩ := h
      exact ⟨List.suffix_cons _ _, by simp, rfl⟩
    · cases h

/-- What a successful row match guarantees about the rest of the document:
it is a proper tail of the input and (because of the `$` anchor) empty or
newline-first. -/
theorem matchRow_rest {s g1 g2 g3 r : List Char}
    (h : matchRow s = some (g1, g2, g3, r)) :
    r.length < s.length ∧ r <:+ s ∧ NlHead r := by
  unfold matchRow at h
  obtain ⟨s1, h1, h⟩ := Option.bind_eq_some.mp h
  obtain ⟨s2a, h2a, h⟩ := Option.bind_eq_some.mp h
  obtain ⟨s2b, h2b, h⟩ := Option.bind_eq_some.mp h
  obtain ⟨s2c, h2c, h⟩ := Option.bind_eq_some.mp h
  obtain ⟨ds, hds, h⟩ := Option.bind_eq_some.mp h
  obtain ⟨d, s2d⟩ := ds
  obtain ⟨ts, hts, h⟩ := Option.bind_eq_some.mp h
  obtain ⟨t, s2e⟩ := ts
  obtain ⟨s3, h3, h⟩ := Option.bind_eq_some.mp h
  obtain ⟨s5, h5, h⟩ := Option.bind_eq_some.mp h
  obtain ⟨s7, h7, h⟩ := Option.bind_eq_some.mp h
  split at h
  · cases h
  · obtain ⟨s9, h9, h⟩ := Option.bind_eq_some.mp h
    split at h
    · cases h
    · obtain ⟨s10, h10, h⟩ := Option.bind_eq_some.mp h
      split at h
      · rename_i hnl
        simp only [Option.some.injEq, Prod.mk.injEq] at h
        obtain ⟨-, -, -, rfl⟩ := h
        have e1 := expectChar_some h1
        have e2a := expectChar_some h2a
        have e2b := expectChar_some h2b
        have e2c := expectChar_some h2c
        have ed := expectPred_some hds
        have et := expectPred_some hts
        have e3 := expectChar_some h3
        have e5 := expectChar_some h5
        have e7 := expectChar_some h7
        have e9 := expectChar_some h9
        have e10 := expectChar_some h10
        have w1 : s1.dropWhile pyIsSpace <:+ s1 := List.dropWhile_suffix _
        have w3 : s3.dropWhile pyIsSpace <:+ s3 := List.dropWhile_suffix _
        have w5 : s5.dropWhile pyIsSpace <:+ s5 := List.dropWhile_suffix _
        have w7 : (s7.drop (s7.takeWhile pyIsDigit).length).dropWhile pyIsSpace <:+ s7 :=
          (List.dropWhile_suffix _).trans (List.drop_suffix _ _)
        have w9 : s9.drop (s9.takeWhile (fun ch => ch ≠ '|')).length <:+ s9 :=
          List.drop_suffix _ _
        refine ⟨?_, ?_, hnl⟩
        · have := e10.2
          have := w9.length_le
          have := e9.2
          have := w7.length_le
          have := e7.2
          have := w5.length_le
          have := e5.2
          have := w3.length_le
          have := e3.2
          have := et.2.1
          have := ed.2.1
          have := e2c.2
          have := e2b.2
          have := e2a.2
          have := w1.length_le
          have := e1.2
          omega
        · exact e10.1.trans (w9.trans (e9.1.trans (w7.trans (e7.1.trans
            (w5.trans (e5.1.trans (w3.trans (e3.1.trans (et.1.trans
            (ed.1.trans (e2c.1.trans (e2b.1.trans (e2a.1.trans
            (w1.trans e1.1))))))))))))))
      · cases h

theorem take_of_suffix {r s : List Char} (h : r <:+ s) :
    s.take (s.length - r.length) ++ r = s := by
  obtain ⟨t, rfl⟩ := h
  have hl : (t ++ r).length - r.length = t.length := by simp
  rw [hl, List.take_left]

/-- The four possible outputs of `format_problem_block`. -/
theorem format_problem_block_shape (p c : List Char) :
    format_problem_block p c = [] ∨
    (p ≠ [] ∧ c = [] ∧ format_problem_block p c = tagMon ++ p) ∨
    (p = [] ∧ c ≠ [] ∧ format_problem_block p c = tagSen ++ c) ∨
    (p ≠ [] ∧ c ≠ [] ∧
      format_problem_block p c = (tagMon ++ p) ++ '\n' :: (tagSen ++ c)) := by
  by_cases hp : p = [] <;> by_cases hc : c = []
  · subst hp; subst hc; left; rfl
  · subst hp
    right; right; left
    refine ⟨rfl, hc, ?_⟩
    simp only [format_problem_block]
    rw [if_neg (by simp), if_pos hc]
    rfl
  · subst hc
    right; left
    refine ⟨hp, rfl, ?_⟩
    simp only [format_problem_block]
    rw [if_pos hp, if_neg (by simp)]
    rfl
  · right; right; right
    refine ⟨hp, hc, ?_⟩
    simp only [format_problem_block, if_pos hp, if_pos hc]
    show joinSep ['\n'] [tagMon ++ p, tagSen ++ c] = _
    show (tagMon ++ p) ++ ['\n'] ++ (tagSen ++ c) = _
    simp

theorem findMatch3_mem {row_ans : List Char}
    {l : List (List Char × List Char × List Char)} {p c : List Char}
    (h : findMatch3 row_ans l = some (p, c)) : ∃ a, (p, c, a) ∈ l := by
  induction l with
  | nil => cases h
  | cons u t ih =>
    obtain ⟨p0, c0, a0⟩ := u
    simp only [findMatch3] at h
    split at h
    · simp only [Option.some.injEq, Prod.mk.injEq] at h
      obtain ⟨rfl, rfl⟩ := h
      exact ⟨a0, List.mem_cons_self _ _⟩
    · obtain ⟨a, ha⟩ := ih h
      exact ⟨a, List.mem_cons_of_mem _ ha⟩

theorem findMatch4_mem {row_ans : List Char}
    {l : List (Nat × List Char × List Char × List Char)} {p c : List Char}
    (h : findMatch4 row_ans l = some (p, c)) : ∃ n a, (n, p, c, a) ∈ l := by
  induction l with
  | nil => cases h
  | cons u t ih =>
    obtain ⟨n0, p0, c0, a0⟩ := u
    simp only [findMatch4] at h
    split at h
    · simp only [Option.some.injEq, Prod.mk.injEq] at h
      obtain ⟨rfl, rfl⟩ := h
      exact ⟨n0, a0, List.mem_cons_self _ _⟩
    · obtain ⟨n, a, ha⟩ := ih h
      exact ⟨n, a, List.mem_cons_of_mem _ ha⟩

/-- The index never stores a newline inside a problem text or a choices
text: `build_lookup` maps problem newlines to spaces and joins single-line
choice items with `" / "`. -/
def NlFreeLookups (bq : List Char × Nat → List (List Char × List Char × List Char))
    (be : List Char → List (Nat × List Char × List Char × List Char)) : Prop :=
  (∀ k p c a, (p, c, a) ∈ bq k → (∀ d ∈ p, d ≠ '\n') ∧ (∀ d ∈ c, d ≠ '\n')) ∧
  (∀ e n p c a, (n, p, c, a) ∈ be e → (∀ d ∈ p, d ≠ '\n') ∧ (∀ d ∈ c, d ≠ '\n'))

/-- `replace_row` output shape, weak form: the matched row comes back
verbatim, followed by an empty or newline-first insertion. -/
theorem replace_row_shape_simple (bq : List Char × Nat → List (List Char × List Char × List Char))
    (be : List Char → List (Nat × List Char × List Char × List Char))
    (full_line g1 g2 g3 : List Char) :
    ∃ ins, replace_row bq be full_line g1 g2 g3 = full_line ++ ins ∧ NlHead ins := by
  have key : ∀ (F : List Char), ∃ ins,
      (if F ≠ [] then full_line ++ '\n' :: F else full_line) = full_line ++ ins ∧
      NlHead ins := by
    intro F
    by_cases hF : F = []
    · subst hF
      exact ⟨[], by simp, Or.inl rfl⟩
    · rw [if_pos hF]
      exact ⟨'\n' :: F, rfl, Or.inr rfl⟩
  cases hq : searchQNum (pyStrip g2) with
  | none => exact ⟨[], by simp [replace_row, hq], Or.inl rfl⟩
  | some q =>
    simp only [replace_row, hq]
    exact key _

/-- `replace_row` output shape, strong form: under newline-free lookup
tables the insertion is empty or one/two whole tagged lines, each with
nonempty newline-free content. -/
theorem replace_row_shape (bq : List Char × Nat → List (List Char × List Char × List Char))
    (be : List Char → List (Nat × List Char × List Char × List Char))
    (hL : NlFreeLookups bq be) (full_line g1 g2 g3 : List Char) :
    ∃ ins, replace_row bq be full_line g1 g2 g3 = full_line ++ ins ∧
      (ins = [] ∨
       (∃ p, p ≠ [] ∧ (∀ d ∈ p, d ≠ '\n') ∧ ins = '\n' :: (tagMon ++ p)) ∨
       (∃ c, c ≠ [] ∧ (∀ d ∈ c, d ≠ '\n') ∧ ins = '\n' :: (tagSen ++ c)) ∨
       (∃ p c, p ≠ [] ∧ c ≠ [] ∧ (∀ d ∈ p, d ≠ '\n') ∧ (∀ d ∈ c, d ≠ '\n') ∧
         ins = '\n' :: ((tagMon ++ p) ++ '\n' :: (tagSen ++ c)))) := by
  have key : ∀ (pc : List Char × List Char), (∀ d ∈ pc.1, d ≠ '\n') →
      (∀ d ∈ pc.2, d ≠ '\n') →
      ∃ ins, (if format_problem_block pc.1 pc.2 ≠ [] then
          full_line ++ '\n' :: format_problem_block pc.1 pc.2 else full_line) =
        full_line ++ ins ∧
      (ins = [] ∨
       (∃ p, p ≠ [] ∧ (∀ d ∈ p, d ≠ '\n') ∧ ins = '\n' :: (tagMon ++ p)) ∨
       (∃ c, c ≠ [] ∧ (∀ d ∈ c, d ≠ '\n') ∧ ins = '\n' :: (tagSen ++ c)) ∨
       (∃ p c, p ≠ [] ∧ c ≠ [] ∧ (∀ d ∈ p, d ≠ '\n') ∧ (∀ d ∈ c, d ≠ '\n') ∧
         ins = '\n' :: ((tagMon ++ p) ++ '\n' :: (tagSen ++ c)))) := by
    intro pc hp hc
    rcases format_problem_block_shape pc.1 pc.2 with h | ⟨h1, h2, h⟩ | ⟨h1, h2, h⟩ |
        ⟨h1, h2, h⟩
    · refine ⟨[], ?_, Or.inl rfl⟩
      rw [if_neg (by simp [h])]
      simp
    · refine ⟨'\n' :: (tagMon ++ pc.1), ?_, Or.inr (Or.inl ⟨pc.1, h1, hp, rfl⟩)⟩
      rw [if_pos (by rw [h]; simp [tagMon]), h]
    · refine ⟨'\n' :: (tagSen ++ pc.2), ?_, Or.inr (Or.inr (Or.inl ⟨pc.2, h2, hc, rfl⟩))⟩
      rw [if_pos (by rw [h]; simp [tagSen]), h]
    · refine ⟨'\n' :: ((tagMon ++ pc.1) ++ '\n' :: (tagSen ++ pc.2)), ?_,
        Or.inr (Or.inr (Or.inr ⟨pc.1, pc.2, h1, h2, hp, hc, rfl⟩))⟩
      rw [if_pos (by rw [h]; simp [tagMon]), h]
  cases hq : searchQNum (pyStrip g2) with
  | none => exact ⟨[], by simp [replace_row, hq], Or.inl rfl⟩
  | some q =>
    have h0 : (∀ d ∈ ((findMatch3 (pyStrip g3) (bq (pyStrip g1, q))).getD ([], [])).1,
          d ≠ '\n') ∧
        (∀ d ∈ ((findMatch3 (pyStrip g3) (bq (pyStrip g1, q))).getD ([], [])).2,
          d ≠ '\n') := by
      cases hf : findMatch3 (pyStrip g3) (bq (pyStrip g1, q)) with
      | none => simp
      | some pr =>
        obtain ⟨p, c⟩ := pr
        obtain ⟨a, hmem⟩ := findMatch3_mem hf
        exact hL.1 _ _ _ _ hmem
    have h1 : (∀ d ∈ (if ((findMatch3 (pyStrip g3) (bq (pyStrip g1, q))).getD ([], [])).1 = [] ∧
            be (pyStrip g1) ≠ [] then
          (findMatch4 (pyStrip g3) (be (pyStrip g1))).getD
            ((findMatch3 (pyStrip g3) (bq (pyStrip g1, q))).getD ([], []))
        else (findMatch3 (pyStrip g3) (bq (pyStrip g1, q))).getD ([], [])).1, d ≠ '\n') ∧
        (∀ d ∈ (if ((findMatch3 (pyStrip g3) (bq (pyStrip g1, q))).getD ([], [])).1 = [] ∧
            be (pyStrip g1) ≠ [] then
          (findMatch4 (pyStrip g3) (be (pyStrip g1))).getD
            ((findMatch3 (pyStrip g3) (bq (pyStrip g1, q))).getD ([], []))
        else (findMatch3 (pyStrip g3) (bq (pyStrip g1, q))).getD ([], [])).2, d ≠ '\n') := by
      by_cases hif : ((findMatch3 (pyStrip g3) (bq (pyStrip g1, q))).getD ([], [])).1 = [] ∧
          be (pyStrip g1) ≠ []
      · rw [if_pos hif]
        cases hf4 : findMatch4 (pyStrip g3) (be (pyStrip g1)) with
        | none => exact h0
        | some pr =>
          obtain ⟨p, c⟩ := pr
          obtain ⟨n, a, hmem⟩ := findMatch4_mem hf4
          exact hL.2 _ _ _ _ _ hmem
      · rw [if_neg hif]
        exact h0
    simp only [replace_row, hq]
    exact key _ h1.1 h1.2

/-- A row match never starts at a newline: `\|` fails at once. -/
theorem matchRow_nl (r : List Char) : matchRow ('\n' :: r) = none := rfl

theorem nlHead_dropWhile (x : List Char) :
    NlHead (x.dropWhile (fun d => d ≠ '\n')) := by
  induction x with
  | nil => exact Or.inl rfl
  | cons c t ih =>
    rw [List.dropWhile_cons]
    by_cases hc : c = '\n'
    · rw [if_neg (by simp [hc])]
      exact Or.inr (by simp [hc])
    · rw [if_pos (by simp [hc])]
      exact ih

/-- The row substitution keeps an empty-or-newline-first tail
empty-or-newline-first. -/
theorem rowSubF_nlhead (bq : List Char × Nat → List (List Char × List Char × List Char))
    (be : List Char → List (Nat × List Char × List Char × List Char)) :
    ∀ (fuel : Nat) (b : Bool) {y : List Char}, NlHead y →
      NlHead (rowSubF bq be fuel b y) := by
  intro fuel
  cases fuel with
  | zero => intro b y hy; exact hy
  | succ n =>
    intro b y hy
    rcases hy with rfl | hy
    · exact Or.inl rfl
    · cases y with
      | nil => cases hy
      | cons c t =>
        simp only [List.head?_cons, Option.some.injEq] at hy
        subst hy
        cases b with
        | false => exact Or.inr rfl
        | true => exact Or.inr rfl

/-- Stripping tagged lines keeps an empty-or-newline-first text
empty-or-newline-first. -/
theorem stripTagF_nlhead (tag : List Char) :
    ∀ (f : Nat) {s : List Char}, NlHead s → NlHead (stripTagF tag f s) := by
  intro f
  induction f with
  | zero => intro s hs; exact hs
  | succ n ih =>
    intro s hs
    rcases hs with rfl | hs
    · exact Or.inl rfl
    · cases s with
      | nil => cases hs
      | cons c t =>
        simp only [List.head?_cons, Option.some.injEq] at hs
        subst hs
        simp only [stripTagF]
        split
        · exact ih (nlHead_dropWhile t)
        · exact Or.inr rfl

theorem hasTag_append_right {tag : List Char} :
    ∀ {a b : List Char}, hasTag tag (a ++ b) = false → hasTag tag b = false := by
  intro a
  induction a with
  | nil => intro b h; exact h
  | cons c t ih => intro b h; exact ih (hasTag_tail_false h)

/-- The row substitution never changes the first line of the text. -/
theorem rowSubF_takeWhile (bq : List Char × Nat → List (List Char × List Char × List Char))
    (be : List Char → List (Nat × List Char × List Char × List Char)) :
    ∀ (fuel : Nat) (atS : Bool) (y : List Char),
      (rowSubF bq be fuel atS y).takeWhile (fun d => d ≠ '\n') =
        y.takeWhile (fun d => d ≠ '\n') := by
  intro fuel
  induction fuel with
  | zero => intro atS y; rfl
  | succ n ih =>
    intro atS y
    match y with
    | [] => rfl
    | c :: rest =>
      have hstep : ∀ (b : Bool),
          (c :: rowSubF bq be n b rest).takeWhile (fun d => d ≠ '\n') =
            (c :: rest).takeWhile (fun d => d ≠ '\n') := by
        intro b
        rw [List.takeWhile_cons, List.takeWhile_cons]
        by_cases hc : c = '\n'
        · rw [if_neg (by simp [hc]), if_neg (by simp [hc])]
        · rw [if_pos (by simp [hc]), if_pos (by simp [hc]), ih]
      cases atS with
      | false => exact hstep _
      | true =>
        cases hm : matchRow (c :: rest) with
        | none =>
          simp only [rowSubF, hm]
          exact hstep _
        | some g =>
          obtain ⟨g1, g2, g3, r2⟩ := g
          simp only [rowSubF, hm, if_true]
          obtain ⟨hlt, hsuf, hnl⟩ := matchRow_rest hm
          obtain ⟨ins, hrr, hins⟩ := replace_row_shape_simple bq be
            ((c :: rest).take ((c :: rest).length - r2.length)) g1 g2 g3
          rw [hrr, List.append_assoc]
          have hout2 : NlHead (rowSubF bq be n false r2) := rowSubF_nlhead bq be n false hnl
          rw [takeWhile_append_nlHead (nlHead_append hins hout2)]
          conv_rhs => rw [← take_of_suffix hsuf]
          rw [takeWhile_append_nlHead hnl]

theorem tagMon_nonl : ∀ d ∈ tagMon, d ≠ '\n' := by decide
theorem tagSen_nonl : ∀ d ∈ tagSen, d ≠ '\n' := by decide

/-- A 選択肢 line is never mistaken for a 問題文 line. -/
theorem not_tagMon_prefix_senline (z : List Char) : ¬ tagMon <+: (tagSen ++ z) := by
  intro h
  have hl : tagMon.length = tagSen.length := rfl
  rw [List.prefix_iff_eq_take, List.take_append_eq_append_take, hl, List.take_length,
    Nat.sub_self, List.take_zero, List.append_nil] at h
  exact absurd h (by decide)

/-- Stripping walks over a clean prefix whose two continuations both start
at a line boundary. -/
theorem stripTagF_append_aligned (tag : List Char) :
    ∀ (a : List Char) (f : Nat) (r v : List Char), a.length ≤ f →
      hasTag tag (a ++ r) = false → NlHead r → NlHead v →
      stripTagF tag f (a ++ v) = a ++ stripTagF tag (f - a.length) v := by
  intro a
  induction a with
  | nil => intro f r v _ _ _ _; simp
  | cons c t ih =>
    intro f r v hf hclean hr hv
    cases f with
    | zero => exact absurd hf (by simp)
    | succ n =>
      rw [List.cons_append]
      rw [List.cons_append] at hclean
      simp only [hasTag, Bool.or_eq_false_iff, decide_eq_false_iff_not] at hclean
      obtain ⟨hc1, hc2⟩ := hclean
      have htv : (t ++ v).takeWhile (fun d => d ≠ '\n') =
          (t ++ r).takeWhile (fun d => d ≠ '\n') := by
        rw [takeWhile_append_nlHead hv, takeWhile_append_nlHead hr]
      simp only [stripTagF]
      rw [if_neg (by rw [htv]; exact hc1)]
      rw [ih n r v (by simpa using Nat.le_of_succ_le_succ hf) hc2 hr hv]
      have harith : n - t.length = n + 1 - (c :: t).length := by
        simp only [List.length_cons]
        omega
      rw [harith, List.cons_append]

/-- Stripping walks over a newline-free prefix. -/
theorem stripTagF_append_nonl (tag : List Char) :
    ∀ (a : List Char) (f : Nat) (x : List Char), (∀ d ∈ a, d ≠ '\n') →
      a.length ≤ f →
      stripTagF tag f (a ++ x) = a ++ stripTagF tag (f - a.length) x := by
  intro a
  induction a with
  | nil => intro f x _ _; simp
  | cons c t ih =>
    intro f x ha hf
    cases f with
    | zero => exact absurd hf (by simp)
    | succ n =>
      rw [List.cons_append]
      simp only [stripTagF]
      rw [if_neg (fun hx => (ha c (List.mem_cons_self c t)) hx.1)]
      rw [ih n x (fun d hd => ha d (List.mem_cons_of_mem c hd))
        (by simpa using Nat.le_of_succ_le_succ hf)]
      have harith : n - t.length = n + 1 - (c :: t).length := by
        simp only [List.length_cons]
        omega
      rw [harith, List.cons_append]

/-- Stripping deletes a freshly inserted tagged line at the front. -/
theorem stripTagF_delete_front (tag : List Char) (htag : ∀ d ∈ tag, d ≠ '\n')
    {p : List Char} (hp : p ≠ []) (hpn : ∀ d ∈ p, d ≠ '\n')
    {x : List Char} (hX : NlHead x) (f : Nat) :
    stripTagF tag (f + 1) ('\n' :: ((tag ++ p) ++ x)) = stripTagF tag f x := by
  have hnl : ∀ d ∈ tag ++ p, d ≠ '\n' := by
    intro d hd
    rcases List.mem_append.mp hd with h | h
    · exact htag d h
    · exact hpn d h
  show (if ('\n' : Char) = '\n' ∧
        tag <+: ((tag ++ p) ++ x).takeWhile (fun d => d ≠ '\n') ∧
        tag.length < (((tag ++ p) ++ x).takeWhile (fun d => d ≠ '\n')).length then
      stripTagF tag f (((tag ++ p) ++ x).dropWhile (fun d => d ≠ '\n'))
    else '\n' :: stripTagF tag f ((tag ++ p) ++ x)) = stripTagF tag f x
  rw [if_pos ⟨rfl, by
      rw [takeWhile_append_nonl hnl hX]
      exact ⟨List.prefix_append tag p, by
        have : 0 < p.length := List.length_pos.mpr hp
        simp only [List.length_append]
        omega⟩⟩]
  rw [dropWhile_append_nonl hnl hX]

/-- Stripping skips a whole single line that does not carry the tag. -/
theorem stripTagF_skip_line (tag : List Char) {a : List Char}
    (ha : ∀ d ∈ a, d ≠ '\n') (hnp : ¬ tag <+: a) {x : List Char} (hX : NlHead x)
    (f : Nat) (hf : a.length ≤ f) :
    stripTagF tag (f + 1) ('\n' :: (a ++ x)) =
      '\n' :: (a ++ stripTagF tag (f - a.length) x) := by
  show (if ('\n' : Char) = '\n' ∧
        tag <+: ((a ++ x).takeWhile (fun d => d ≠ '\n')) ∧
        tag.length < (((a ++ x).takeWhile (fun d => d ≠ '\n'))).length then
      stripTagF tag f ((a ++ x).dropWhile (fun d => d ≠ '\n'))
    else '\n' :: stripTagF tag f (a ++ x)) = _
  rw [if_neg (by rw [takeWhile_append_nonl ha hX]; exact fun hx => hnp hx.2.1)]
  rw [stripTagF_append_nonl tag a f x ha hf]

theorem stripTagF_nil (tag : List Char) (f : Nat) : stripTagF tag f [] = [] := by
  cases f with
  | zero => rfl
  | succ n => rfl

/-- Core of the idempotence argument: on a document clean of both tag
patterns, the two strip passes undo exactly what the row substitution
inserted, provided the lookup tables are newline-free. -/
theorem doubleStrip_rowSubF (bq : List Char × Nat → List (List Char × List Char × List Char))
    (be : List Char → List (Nat × List Char × List Char × List Char))
    (hL : NlFreeLookups bq be) :
    ∀ (fuel : Nat) (y : List Char) (atS : Bool), y.length ≤ fuel →
      hasTag tagMon y = false → hasTag tagSen y = false →
      ∀ (f1 f2 : Nat), (rowSubF bq be fuel atS y).length ≤ f1 →
        (stripTagF tagMon f1 (rowSubF bq be fuel atS y)).length ≤ f2 →
        stripTagF tagSen f2 (stripTagF tagMon f1 (rowSubF bq be fuel atS y)) = y := by
  intro fuel
  induction fuel with
  | zero =>
    intro y atS hlen hM hS f1 f2 h1 h2
    have hy0 : y = [] := List.eq_nil_of_length_eq_zero (Nat.le_zero.mp hlen)
    subst hy0
    show stripTagF tagSen f2 (stripTagF tagMon f1 []) = []
    rw [stripTagF_nil, stripTagF_nil]
  | succ n ih =>
    intro y atS hlen hM hS f1 f2 h1 h2
    match y with
    | [] =>
      show stripTagF tagSen f2 (stripTagF tagMon f1 []) = []
      rw [stripTagF_nil, stripTagF_nil]
    | c :: rest =>
      have hrlen : rest.length ≤ n := by simpa using Nat.le_of_succ_le_succ hlen
      have hMd := hM
      have hSd := hS
      simp only [hasTag, Bool.or_eq_false_iff, decide_eq_false_iff_not] at hMd hSd
      have plain : ∀ (b : Bool) (f1 f2 : Nat),
          (c :: rowSubF bq be n b rest).length ≤ f1 →
          (stripTagF tagMon f1 (c :: rowSubF bq be n b rest)).length ≤ f2 →
          stripTagF tagSen f2 (stripTagF tagMon f1 (c :: rowSubF bq be n b rest)) =
            c :: rest := by
        intro b f1 f2 hf1 hf2
        cases f1 with
        | zero => simp at hf1
        | succ m1 =>
          have hTW : (rowSubF bq be n b rest).takeWhile (fun d => d ≠ '\n') =
              rest.takeWhile (fun d => d ≠ '\n') := rowSubF_takeWhile bq be n b rest
          have stepM : stripTagF tagMon (m1 + 1) (c :: rowSubF bq be n b rest) =
              c :: stripTagF tagMon m1 (rowSubF bq be n b rest) := by
            simp only [stripTagF]
            rw [if_neg (by rw [hTW]; exact hMd.1)]
          rw [stepM] at hf2 ⊢
          cases f2 with
          | zero => simp at hf2
          | succ m2 =>
            have hb1 : (rowSubF bq be n b rest).length ≤ m1 := by simpa using hf1
            have hTW2 : (stripTagF tagMon m1
                  (rowSubF bq be n b rest)).takeWhile (fun d => d ≠ '\n') =
                rest.takeWhile (fun d => d ≠ '\n') := by
              rw [stripTagF_takeWhile tagMon m1 _ hb1, hTW]
            have stepS : stripTagF tagSen (m2 + 1)
                  (c :: stripTagF tagMon m1 (rowSubF bq be n b rest)) =
                c :: stripTagF tagSen m2 (stripTagF tagMon m1 (rowSubF bq be n b rest)) := by
              simp only [stripTagF]
              rw [if_neg (by rw [hTW2]; exact hSd.1)]
            rw [stepS]
            have hb2 : (stripTagF tagMon m1 (rowSubF bq be n b rest)).length ≤ m2 := by
              simpa using hf2
            rw [ih rest b hrlen hMd.2 hSd.2 m1 m2 hb1 hb2]
      cases atS with
      | false => exact plain _ f1 f2 h1 h2
      | true =>
        cases hm : matchRow (c :: rest) with
        | none =>
          have hout : rowSubF bq be (n + 1) true (c :: rest) =
              c :: rowSubF bq be n (decide (c = '\n')) rest := by
            simp only [rowSubF, hm, if_true]
          rw [hout] at h1 h2 ⊢
          exact plain _ f1 f2 h1 h2
        | some g =>
          obtain ⟨g1, g2, g3, r2⟩ := g
          obtain ⟨hlt, hsuf, hnl⟩ := matchRow_rest hm
          obtain ⟨ins, hrr, hshape⟩ := replace_row_shape bq be hL
            ((c :: rest).take ((c :: rest).length - r2.length)) g1 g2 g3
          have hout : rowSubF bq be (n + 1) true (c :: rest) =
              (c :: rest).take ((c :: rest).length - r2.length) ++
                (ins ++ rowSubF bq be n false r2) := by
            simp only [rowSubF, hm, if_true]
            rw [hrr, List.append_assoc]
          have hy : (c :: rest).take ((c :: rest).length - r2.length) ++ r2 = c :: rest :=
            take_of_suffix hsuf
          set A := (c :: rest).take ((c :: rest).length - r2.length) with hA
          rw [hout] at h1 h2 ⊢
          have hout2nl : NlHead (rowSubF bq be n false r2) :=
            rowSubF_nlhead bq be n false hnl
          have hMA : hasTag tagMon (A ++ r2) = false := by rw [hy]; exact hM
          have hSA : hasTag tagSen (A ++ r2) = false := by rw [hy]; exact hS
          have hMr2 : hasTag tagMon r2 = false := hasTag_append_right hMA
          have hSr2 : hasTag tagSen r2 = false := hasTag_append_right hSA
          have hr2n : r2.length ≤ n := by
            have h0 : (c :: rest).length ≤ n + 1 := hlen
            omega
          simp only [List.length_append] at h1
          have hmon : ∃ gZ, (rowSubF bq be n false r2).length ≤ gZ ∧
              (stripTagF tagMon f1 (A ++ (ins ++ rowSubF bq be n false r2)) =
                  A ++ stripTagF tagMon gZ (rowSubF bq be n false r2) ∨
               ∃ cc, cc ≠ [] ∧ (∀ d ∈ cc, d ≠ '\n') ∧
                 stripTagF tagMon f1 (A ++ (ins ++ rowSubF bq be n false r2)) =
                   A ++ '\n' :: ((tagSen ++ cc) ++
                     stripTagF tagMon gZ (rowSubF bq be n false r2))) := by
            rcases hshape with rfl | ⟨p, hp, hpn, rfl⟩ | ⟨cc, hc, hcn, rfl⟩ |
                ⟨p, cc, hp, hc, hpn, hcn, rfl⟩
            · simp only [List.length_nil] at h1
              refine ⟨f1 - A.length, by omega, Or.inl ?_⟩
              rw [List.nil_append]
              exact stripTagF_append_aligned tagMon A f1 r2 _ (by omega) hMA hnl hout2nl
            · simp only [List.length_cons, List.length_append] at h1
              have hassoc : ('\n' :: (tagMon ++ p)) ++ rowSubF bq be n false r2 =
                  '\n' :: ((tagMon ++ p) ++ rowSubF bq be n false r2) := by simp
              rw [hassoc]
              rw [stripTagF_append_aligned tagMon A f1 r2
                ('\n' :: ((tagMon ++ p) ++ rowSubF bq be n false r2))
                (by omega) hMA hnl (Or.inr rfl)]
              obtain ⟨g, hg⟩ : ∃ g, f1 - A.length = g + 1 :=
                ⟨f1 - A.length - 1, by omega⟩
              rw [hg, stripTagF_delete_front tagMon tagMon_nonl hp hpn hout2nl g]
              exact ⟨g, by omega, Or.inl rfl⟩
            · simp only [List.length_cons, List.length_append] at h1
              have hsenl : ∀ d ∈ tagSen ++ cc, d ≠ '\n' := by
                intro d hd
                rcases List.mem_append.mp hd with h | h
                · exact tagSen_nonl d h
                · exact hcn d h
              have hassoc : ('\n' :: (tagSen ++ cc)) ++ rowSubF bq be n false r2 =
                  '\n' :: ((tagSen ++ cc) ++ rowSubF bq be n false r2) := by simp
              rw [hassoc]
              rw [stripTagF_append_aligned tagMon A f1 r2
                ('\n' :: ((tagSen ++ cc) ++ rowSubF bq be n false r2))
                (by omega) hMA hnl (Or.inr rfl)]
              obtain ⟨g, hg⟩ : ∃ g, f1 - A.length = g + 1 :=
                ⟨f1 - A.length - 1, by omega⟩
              rw [hg, stripTagF_skip_line tagMon hsenl (not_tagMon_prefix_senline cc)
                hout2nl g (by simp only [List.length_append]; omega)]
              refine ⟨g - (tagSen ++ cc).length, ?_, Or.inr ⟨cc, hc, hcn, rfl⟩⟩
              simp only [List.length_append]
              omega
            · simp only [List.length_cons, List.length_append] at h1
              have hsenl : ∀ d ∈ tagSen ++ cc, d ≠ '\n' := by
                intro d hd
                rcases List.mem_append.mp hd with h | h
                · exact tagSen_nonl d h
                · exact hcn d h
              have hassoc : ('\n' :: ((tagMon ++ p) ++ '\n' :: (tagSen ++ cc))) ++
                    rowSubF bq be n false r2 =
                  '\n' :: ((tagMon ++ p) ++
                    '\n' :: ((tagSen ++ cc) ++ rowSubF bq be n false r2)) := by simp
              rw [hassoc]
              rw [stripTagF_append_aligned tagMon A f1 r2
                ('\n' :: ((tagMon ++ p) ++
                  '\n' :: ((tagSen ++ cc) ++ rowSubF bq be n false r2)))
                (by omega) hMA hnl (Or.inr rfl)]
              obtain ⟨g, hg⟩ : ∃ g, f1 - A.length = g + 1 :=
                ⟨f1 - A.length - 1, by omega⟩
              rw [hg, stripTagF_delete_front tagMon tagMon_nonl hp hpn
                (show NlHead ('\n' :: ((tagSen ++ cc) ++ rowSubF bq be n false r2))
                  from Or.inr rfl) g]
              obtain ⟨g2, hg2⟩ : ∃ g2, g = g2 + 1 := ⟨g - 1, by omega⟩
              rw [hg2, stripTagF_skip_line tagMon hsenl (not_tagMon_prefix_senline cc)
                hout2nl g2 (by simp only [List.length_append]; omega)]
              refine ⟨g2 - (tagSen ++ cc).length, ?_, Or.inr ⟨cc, hc, hcn, rfl⟩⟩
              simp only [List.length_append]
              omega
          obtain ⟨gZ, hgZ, hcase⟩ := hmon
          rcases hcase with hmoneq | ⟨cc, hc, hcn, hmoneq⟩
          · rw [hmoneq] at h2 ⊢
            simp only [List.length_append] at h2
            have hZnl : NlHead (stripTagF tagMon gZ (rowSubF bq be n false r2)) :=
              stripTagF_nlhead tagMon gZ hout2nl
            rw [stripTagF_append_aligned tagSen A f2 r2 _ (by omega) hSA hnl hZnl]
            rw [← hy]
            congr 1
            exact ih r2 false hr2n hMr2 hSr2 gZ (f2 - A.length) hgZ (by omega)
          · rw [hmoneq] at h2 ⊢
            simp only [List.length_append, List.length_cons] at h2
            have hZnl : NlHead (stripTagF tagMon gZ (rowSubF bq be n false r2)) :=
              stripTagF_nlhead tagMon gZ hout2nl
            rw [stripTagF_append_aligned tagSen A f2 r2
              ('\n' :: ((tagSen ++ cc) ++
                stripTagF tagMon gZ (rowSubF bq be n false r2)))
              (by omega) hSA hnl (Or.inr rfl)]
            obtain ⟨g2, hg2⟩ : ∃ g2, f2 - A.length = g2 + 1 :=
              ⟨f2 - A.length - 1, by omega⟩
            rw [hg2, stripTagF_delete_front tagSen tagSen_nonl hc hcn hZnl g2]
            rw [← hy]
            congr 1
            exact ih r2 false hr2n hMr2 hSr2 gZ g2 hgZ (by omega)

/-- Claim C5: with a fixed pair of lookup tables whose stored problem and
choices texts contain no newline (as `build_lookup` guarantees by
construction), the content transformation of `main` is idempotent: the
pre-pass strips exactly the lines the row substitution attached, and the
substitution then reproduces them, so a second run returns the first run's
output byte for byte. -/
theorem rewrite_idempotent (bq : List Char × Nat → List (List Char × List Char × List Char))
    (be : List Char → List (Nat × List Char × List Char × List Char))
    (hL : NlFreeLookups bq be) (x : List Char) :
    rewriteContent bq be (rewriteContent bq be x) = rewriteContent bq be x := by
  have hMy : hasTag tagMon
      (stripTagF tagSen (stripTagF tagMon x.length x).length
        (stripTagF tagMon x.length x)) = false :=
    hasTag_stripTagF_other tagMon tagSen _ _ le_rfl
      (hasTag_stripTagF tagMon x.length x le_rfl)
  have hSy : hasTag tagSen
      (stripTagF tagSen (stripTagF tagMon x.length x).length
        (stripTagF tagMon x.length x)) = false :=
    hasTag_stripTagF tagSen _ _ le_rfl
  simp only [rewriteContent, rowSub, stripTag]
  rw [doubleStrip_rowSubF bq be hL _ _ true le_rfl hMy hSy _ _ le_rfl le_rfl]

theorem rewrite_idempotent_witness :
    NlFreeLookups bqGoodProb beOverride ∧
    rewriteContent bqGoodProb beOverride
        (rewriteContent bqGoodProb beOverride "| 2022本試 | 問1 | 一二 |".toList) =
      rewriteContent bqGoodProb beOverride "| 2022本試 | 問1 | 一二 |".toList := by
  have hL : NlFreeLookups bqGoodProb beOverride := by
    constructor
    · intro k p c a hmem
      simp only [bqGoodProb] at hmem
      split at hmem
      · simp only [List.mem_singleton, Prod.mk.injEq] at hmem
        obtain ⟨rfl, rfl, rfl⟩ := hmem
        exact ⟨by decide, by decide⟩
      · exact absurd hmem (List.not_mem_nil _)
    · intro e n p c a hmem
      simp only [beOverride] at hmem
      split at hmem
      · simp only [List.mem_singleton, Prod.mk.injEq] at hmem
        obtain ⟨-, rfl, rfl, rfl⟩ := hmem
        exact ⟨by decide, by decide⟩
      · exact absurd hmem (List.not_mem_nil _)
  exact ⟨hL, rewrite_idempotent bqGoodProb beOverride hL _⟩
